import Mathlib

/-!
Verification development for the portfolio-backtesting engine of the
`stock-indicator-backtest` repository (`src/backtest.js`,
`src/backtestPortfolio.js`, `src/seriesUtils.js`).

Modelling conventions (shallow embedding):
* JavaScript numbers are modelled by `ℚ` (exact real arithmetic). Non-finite
  sentinels (`NaN`, `Infinity`, `undefined`) that the code only ever probes
  through `Number.isFinite(x) && x > 0` are modelled by `0`, which fails the
  same guard. Calendar keys (`YYYYMMDD` integers) are modelled by `ℤ`; the
  `Number.isFinite` test on a date that is always a numeric literal is `True`.
* A JavaScript `Map` is modelled by an association list with the exact
  insertion-order semantics of `Map`: `set` overwrites an existing key in
  place, otherwise appends; `delete` removes the key; iteration follows the
  list order.
* The binary min-heap of `backtestPortfolio.js` is transcribed literally
  (sift-up / sift-down on the underlying array).
* `Array.prototype.sort` (stable since ES2019) with the event comparator is
  modelled by `List.mergeSort` with the corresponding total preorder.
* JavaScript `throw` is modelled by `Except.error`.
-/

/-- JS-`Map` lookup: value of the (unique) matching key. -/
def mapGet {κ β : Type} [DecidableEq κ] (m : List (κ × β)) (k : κ) : Option β :=
  match m with
  | [] => none
  | (k', v) :: rest => if k' = k then some v else mapGet rest k

/-- JS-`Map.set`: overwrite the key in place if present, else append. -/
def mapSet {κ β : Type} [DecidableEq κ] (m : List (κ × β)) (k : κ) (v : β) :
    List (κ × β) :=
  match m with
  | [] => [(k, v)]
  | (k', v') :: rest =>
      if k' = k then (k, v) :: rest else (k', v') :: mapSet rest k v

/-- JS-`Map.delete`: remove the (unique) matching key. -/
def mapDelete {κ β : Type} [DecidableEq κ] (m : List (κ × β)) (k : κ) :
    List (κ × β) :=
  match m with
  | [] => []
  | (k', v') :: rest =>
      if k' = k then rest else (k', v') :: mapDelete rest k

/-- Read a price array at a JS index: out-of-range (`undefined`) and the
non-finite sentinels are modelled by `0`, which fails the `isFinite && > 0`
guards exactly as the original values do. -/
def qGet (xs : List ℚ) (i : ℤ) : ℚ :=
  if 0 ≤ i then xs.getD i.toNat 0 else 0

/-- Read a date array at a JS index; `none` models `undefined`, which fails
every `Number.isFinite` / range test. -/
def iGet (xs : List ℤ) (i : ℤ) : Option ℤ :=
  if 0 ≤ i then xs.get? i.toNat else none

/-- One entry of the price-propagation min-heap: `{ date, file }`. -/
structure HeapE where
  date : ℤ
  file : String
deriving DecidableEq

/-- Placeholder for `getD` on heap arrays; never read at an in-bounds index. -/
def dummyHE : HeapE := ⟨0, ""⟩

/-- Swap two slots of the heap array. -/
def heSwap (a : List HeapE) (i j : Nat) : List HeapE :=
  (a.set i (a.getD j dummyHE)).set j (a.getD i dummyHE)

/-- `MinHeap.push` sift-up loop: `while (i > 0) { p = (i-1)/2; ... }`. -/
def siftUp (a : List HeapE) (i : Nat) : List HeapE :=
  if h : i = 0 then a
  else
    let p := (i - 1) / 2
    if (a.getD p dummyHE).date ≤ (a.getD i dummyHE).date then a
    else siftUp (heSwap a p i) p
termination_by i
decreasing_by
  omega

/-- `MinHeap.push`. -/
def heapPush (a : List HeapE) (x : HeapE) : List HeapE :=
  siftUp (a ++ [x]) a.length

/-- The slot that `MinHeap.pop`'s sift-down step swaps `i` with: the smaller
child if it beats `a[i]`, else `i` itself. -/
def sdTarget (a : List HeapE) (i : Nat) : Nat :=
  let l := 2 * i + 1
  let r := 2 * i + 2
  let m1 := if l < a.length ∧ (a.getD l dummyHE).date < (a.getD i dummyHE).date
    then l else i
  if r < a.length ∧ (a.getD r dummyHE).date < (a.getD m1 dummyHE).date
    then r else m1

theorem sdTarget_cases (a : List HeapE) (i : Nat) :
    sdTarget a i = i ∨ (i < sdTarget a i ∧ sdTarget a i < a.length) := by
  unfold sdTarget
  simp only []
  split_ifs with h1 h2 h3 <;> omega

/-- `MinHeap.pop` sift-down loop. -/
def siftDown (a : List HeapE) (i : Nat) : List HeapE :=
  if hm : sdTarget a i = i then a
  else siftDown (heSwap a (sdTarget a i) i) (sdTarget a i)
termination_by a.length - i
decreasing_by
  have hlen : (heSwap a (sdTarget a i) i).length = a.length := by
    simp [heSwap]
  rw [hlen]
  rcases sdTarget_cases a i with h | h
  · exact absurd h hm
  · omega

/-- `MinHeap.pop`: returns the popped min-date entry and the new array. -/
def heapPop (a : List HeapE) : Option HeapE × List HeapE :=
  match a with
  | [] => (none, [])
  | top :: _ =>
      let body := a.dropLast
      match body with
      | [] => (some top, [])
      | _ :: _ => (some top, siftDown (body.set 0 (a.getLastD dummyHE)) 0)

/-- `MinHeap.peek`. -/
def heapPeek (a : List HeapE) : Option HeapE := a.head?

theorem siftUp_length (a : List HeapE) (i : Nat) :
    (siftUp a i).length = a.length := by
  induction i using Nat.strong_induction_on generalizing a with
  | _ i ih =>
      rw [siftUp]
      simp only []
      split_ifs with h0 hle
      · rfl
      · rfl
      · rw [ih ((i - 1) / 2) (by omega)]
        simp [heSwap]

theorem siftDown_length (a : List HeapE) (i : Nat) :
    (siftDown a i).length = a.length := by
  have key : ∀ k a i, a.length - i ≤ k → (siftDown a i).length = a.length := by
    intro k
    induction k with
    | zero =>
        intro a i hk
        rw [siftDown]
        rcases sdTarget_cases a i with h | h
        · simp [h]
        · omega
    | succ k ih =>
        intro a i hk
        rw [siftDown]
        split_ifs with h
        · rfl
        · rcases sdTarget_cases a i with h' | h'
          · exact absurd h' h
          · have hsw : (heSwap a (sdTarget a i) i).length = a.length := by
              simp [heSwap]
            rw [ih _ _ (by rw [hsw]; omega), hsw]
  exact key (a.length - i) a i le_rfl

theorem heapPush_length (a : List HeapE) (x : HeapE) :
    (heapPush a x).length = a.length + 1 := by
  simp [heapPush, siftUp_length]

theorem heapPop_length {a : List HeapE} (h : a ≠ []) :
    ∃ e, heapPop a = (some e, (heapPop a).2) ∧
      (heapPop a).2.length + 1 = a.length := by
  match a with
  | [] => exact absurd rfl h
  | top :: rest =>
      refine ⟨top, ?_, ?_⟩
      · cases hb : (top :: rest).dropLast with
        | nil => simp [heapPop, hb]
        | cons x xs => simp [heapPop, hb]
      · cases hb : (top :: rest).dropLast with
        | nil =>
            simp only [heapPop, hb]
            have := congrArg List.length hb
            simp [List.length_dropLast] at this
            simp [this]
        | cons x xs =>
            simp only [heapPop, hb]
            have := congrArg List.length hb
            simp [List.length_dropLast] at this
            simp [siftDown_length, ← hb, List.length_dropLast]

/-- Event type: `'buy' | 'sell'`. -/
inductive EvType where
  | sell : EvType
  | buy : EvType
deriving DecidableEq

/-- Execution event `{date, type, file, execIdx, price, reason}`. -/
structure Ev where
  date : ℤ
  type : EvType
  file : String
  execIdx : ℤ
  price : ℚ
  reason : String
deriving DecidableEq

/-- One security's price series `{datesYmd, closeAdj}` as the engine reads it. -/
structure SeriesData where
  datesYmd : List ℤ
  closeAdj : List ℚ
deriving DecidableEq

/-- Per-security input of `buildExecutionEvents`. -/
structure SignalSeries where
  file : String
  datesYmd : List ℤ
  closeAdj : List ℚ
  entrySignal : List Bool
  exitSignal : List Bool

/-- `execution : 'close' | 'next_close'`. -/
inductive ExecTiming where
  | close : ExecTiming
  | nextClose : ExecTiming
deriving DecidableEq

/-- Options of `buildExecutionEvents`. -/
structure BuildOpts where
  startYmd : ℤ
  endYmd : ℤ
  execution : ExecTiming

/-- `inRange(idx)`: the date at `idx` exists and lies inside the window. -/
def beInRange (si : SignalSeries) (o : BuildOpts) (idx : ℤ) : Prop :=
  match iGet si.datesYmd idx with
  | some ymd => o.startYmd ≤ ymd ∧ ymd ≤ o.endYmd
  | none => False

instance (si : SignalSeries) (o : BuildOpts) (idx : ℤ) :
    Decidable (beInRange si o idx) := by
  unfold beInRange
  cases iGet si.datesYmd idx <;> infer_instance

/-- `execIndex(i)`: signal at `i` executes at `i` (close) or `i+1` (next close). -/
def execIndex (o : BuildOpts) (i : ℤ) : ℤ :=
  match o.execution with
  | ExecTiming.close => i
  | ExecTiming.nextClose => i + 1

/-- Date at index `j`, read as the event constructor does (`datesYmd[j]`);
only used at indices already known to be in range. -/
def dateAt (si : SignalSeries) (j : ℤ) : ℤ :=
  (iGet si.datesYmd j).getD 0

/-- The signal-scan part of `buildExecutionEvents`: for each in-range index,
an exit signal then an entry signal may emit an event at the execution index
when that index is in range with a positive finite price. -/
def signalEventsAt (si : SignalSeries) (o : BuildOpts) (i : ℕ) : List Ev :=
  if beInRange si o i then
    (if si.exitSignal.getD i false then
      (let j := execIndex o i
       if 0 ≤ j ∧ j < (si.closeAdj.length : ℤ) ∧ beInRange si o j ∧
           0 < qGet si.closeAdj j then
         [⟨dateAt si j, EvType.sell, si.file, j, qGet si.closeAdj j, "signal_exit"⟩]
       else [])
     else []) ++
    (if si.entrySignal.getD i false then
      (let j := execIndex o i
       if 0 ≤ j ∧ j < (si.closeAdj.length : ℤ) ∧ beInRange si o j ∧
           0 < qGet si.closeAdj j then
         [⟨dateAt si j, EvType.buy, si.file, j, qGet si.closeAdj j, "signal_entry"⟩]
       else [])
     else [])
  else []

/-- An index is "valid" for the forced-liquidation scan: in-window date and
positive finite price. -/
def beValidIdx (si : SignalSeries) (o : BuildOpts) (i : ℕ) : Prop :=
  (match iGet si.datesYmd i with
   | some ymd => o.startYmd ≤ ymd ∧ ymd ≤ o.endYmd
   | none => False) ∧ 0 < qGet si.closeAdj i

instance (si : SignalSeries) (o : BuildOpts) (i : ℕ) :
    Decidable (beValidIdx si o i) := by
  unfold beValidIdx
  cases iGet si.datesYmd (i : ℤ) <;> infer_instance

/-- The `lastIdx` scan: last index in `0..n-1` with in-window date and
positive price (`-1`, i.e. `none`, if there is none). -/
def lastValidIdx (si : SignalSeries) (o : BuildOpts) : Option ℕ :=
  (List.range si.closeAdj.length).foldl
    (fun acc i => if beValidIdx si o i then some i else acc) none

/-- `buildExecutionEvents`: signal-driven events plus the forced
end-of-window liquidation sell. -/
def buildExecutionEvents (si : SignalSeries) (o : BuildOpts) : List Ev :=
  ((List.range si.closeAdj.length).flatMap (signalEventsAt si o)) ++
  (match lastValidIdx si o with
   | some li =>
       [⟨dateAt si li, EvType.sell, si.file, li, qGet si.closeAdj li,
         "force_exit_eof"⟩]
   | none => [])

/-- Result of `computeMaxDrawdown`; `null` dates are `none`. -/
structure DdResult where
  maxDrawdown : ℚ
  maxDrawdownFrom : Option ℤ
  maxDrawdownTo : Option ℤ
deriving DecidableEq

/-- Accumulator of the single left-to-right drawdown scan; `peak = none`
models the initial `Number.NEGATIVE_INFINITY`. -/
structure DdAcc where
  peak : Option ℚ
  maxDd : ℚ
  ddFrom : Option ℤ
  ddTo : Option ℤ

/-- One step of the `computeMaxDrawdown` loop (every modelled equity value is
finite, so the `Number.isFinite` skip never fires). -/
def ddStep (acc : DdAcc) (p : ℤ × ℚ) : DdAcc :=
  let peak' : ℚ := match acc.peak with
    | none => p.2
    | some pk => if pk < p.2 then p.2 else pk
  if 0 < peak' then
    let dd := (peak' - p.2) / peak'
    if acc.maxDd < dd then ⟨some peak', dd, some p.1, some p.1⟩
    else ⟨some peak', acc.maxDd, acc.ddFrom, acc.ddTo⟩
  else ⟨some peak', acc.maxDd, acc.ddFrom, acc.ddTo⟩

/-- `computeMaxDrawdown` over an equity curve of `(date, equity)` points. -/
def computeMaxDrawdown (curve : List (ℤ × ℚ)) : DdResult :=
  let acc := curve.foldl ddStep ⟨none, 0, none, none⟩
  ⟨acc.maxDd, acc.ddFrom, acc.ddTo⟩

/-- Open position: `{shares, lastPrice, idx, nextIdx, entry:{date, price,
costBasis}}` (entry flattened into the record). -/
structure Pos where
  shares : ℚ
  lastPrice : ℚ
  idx : ℤ
  nextIdx : ℤ
  entryDate : ℤ
  entryPrice : ℚ
  costBasis : ℚ
deriving DecidableEq

/-- Closed-trade record pushed by `sellOne`. A `ret` that the code leaves as
`NaN` (non-positive cost basis) is modelled by `0`. -/
structure Trade where
  file : String
  entryDate : ℤ
  exitDate : ℤ
  entryPrice : ℚ
  exitPrice : ℚ
  shares : ℚ
  pnl : ℚ
  ret : ℚ
  reason : String
deriving DecidableEq

/-- Read-only context of one `simulatePortfolioEqualWeight` run. -/
structure Ctx where
  seriesByFile : List (String × SeriesData)
  endYmd : ℤ
  lot : ℚ
  feeRate : ℚ
  stampRate : ℚ

/-- Mutable engine state: `cash`, `positions`, `trades`, `equityCurve`,
`totalMarketValue`, and the scheduler heap. -/
structure SimSt where
  cash : ℚ
  positions : List (String × Pos)
  trades : List Trade
  equityCurve : List (ℤ × ℚ)
  totalMV : ℚ
  heap : List HeapE

/-- `pushEquityPoint`: replace the last point when it carries the same date,
else append. -/
def pushEquityPoint (curve : List (ℤ × ℚ)) (d : ℤ) (eq : ℚ) :
    List (ℤ × ℚ) :=
  match curve.getLast? with
  | some p => if p.1 = d then curve.dropLast ++ [(d, eq)] else curve ++ [(d, eq)]
  | none => curve ++ [(d, eq)]

/-- `pushNextIfAny(file)`: schedule the position's next unseen series index
(when it exists and is within the run's end date). -/
def pushNextIfAny (ctx : Ctx) (st : SimSt) (f : String) : SimSt :=
  match mapGet st.positions f with
  | none => st
  | some pos =>
      match mapGet ctx.seriesByFile f with
      | none => st
      | some s =>
          let ni := pos.nextIdx
          if 0 ≤ ni ∧ ni < (s.datesYmd.length : ℤ) then
            let nd := (iGet s.datesYmd ni).getD 0
            if nd ≤ ctx.endYmd then
              { st with heap := heapPush st.heap ⟨nd, f⟩ }
            else st
          else st

/-- `applyPriceUpdate(file, newIdx)`: advance the position to `newIdx`,
delta the aggregate market value when the new price is a positive quote,
and re-schedule the security. -/
def applyPriceUpdate (ctx : Ctx) (st : SimSt) (f : String) (newIdx : ℤ) :
    SimSt :=
  match mapGet st.positions f, mapGet ctx.seriesByFile f with
  | some pos, some s =>
      let newPrice := qGet s.closeAdj newIdx
      if 0 < newPrice then
        let pos' := { pos with
          lastPrice := newPrice
          idx := newIdx
          nextIdx := newIdx + 1 }
        let st' := { st with
          positions := mapSet st.positions f pos'
          totalMV := st.totalMV + pos.shares * (newPrice - pos.lastPrice) }
        pushNextIfAny ctx st' f
      else
        let pos' := { pos with idx := newIdx, nextIdx := newIdx + 1 }
        pushNextIfAny ctx { st with positions := mapSet st.positions f pos' } f
  | _, _ => st

/-- Body of one iteration of the date-`d` drain loops: pop the heap and, when
the popped security's next index is exactly the series row dated `d`, apply
the price update. -/
def drainStep (ctx : Ctx) (d : ℤ) (st : SimSt) : SimSt :=
  match heapPop st.heap with
  | (none, a') => { st with heap := a' }
  | (some e, a') =>
      let st1 := { st with heap := a' }
      match mapGet st1.positions e.file, mapGet ctx.seriesByFile e.file with
      | some pos, some s =>
          let idx := pos.nextIdx
          if 0 ≤ idx ∧ idx < (s.datesYmd.length : ℤ) ∧
              iGet s.datesYmd idx = some d then
            applyPriceUpdate ctx st1 e.file idx
          else st1
      | _, _ => st1

/-- Rows of the security's series not yet visited by the position — the
potential future price updates of this open position. -/
def remFor (ctx : Ctx) (f : String) (pos : Pos) : Nat :=
  match mapGet ctx.seriesByFile f with
  | none => 0
  | some s => ((s.datesYmd.length : ℤ) - pos.nextIdx).toNat

/-- Sum of `remFor` over the open positions. -/
def posRemSum (ctx : Ctx) (m : List (String × Pos)) : Nat :=
  (m.map (fun p => remFor ctx p.1 p.2)).sum

/-- Termination measure of the drain loops: pending heap entries plus
unvisited series rows of open positions. -/
def simMu (ctx : Ctx) (st : SimSt) : Nat :=
  st.heap.length + posRemSum ctx st.positions

theorem mapGet_mapSet_self {κ β : Type} [DecidableEq κ]
    (m : List (κ × β)) (k : κ) (v : β) : mapGet (mapSet m k v) k = some v := by
  induction m with
  | nil => simp [mapGet, mapSet]
  | cons hd tl ih =>
      by_cases h : hd.1 = k
      · simp [mapSet, mapGet, h]
      · simp [mapSet, mapGet, h, ih]

theorem mapGet_mapSet_ne {κ β : Type} [DecidableEq κ]
    (m : List (κ × β)) (k k' : κ) (v : β) (h : k' ≠ k) :
    mapGet (mapSet m k v) k' = mapGet m k' := by
  have hne : ¬k = k' := fun he => h he.symm
  induction m with
  | nil => simp [mapGet, mapSet, hne]
  | cons hd tl ih =>
      by_cases hk : hd.1 = k
      · simp [mapSet, mapGet, hk, hne]
      · simp only [mapSet, if_neg hk, mapGet]
        by_cases hk' : hd.1 = k' <;> simp [hk', ih]

theorem posRemSum_mapSet (ctx : Ctx) (m : List (String × Pos)) (f : String)
    (pos pos' : Pos) (h : mapGet m f = some pos) :
    posRemSum ctx (mapSet m f pos') + remFor ctx f pos =
      posRemSum ctx m + remFor ctx f pos' := by
  induction m with
  | nil => simp [mapGet] at h
  | cons hd tl ih =>
      by_cases hk : hd.1 = f
      · simp only [mapGet, if_pos hk] at h
        cases h
        simp only [mapSet, if_pos hk, posRemSum, List.map, List.sum_cons]
        subst hk
        omega
      · simp only [mapGet, if_neg hk] at h
        simp only [mapSet, if_neg hk, posRemSum, List.map, List.sum_cons]
        have := ih h
        simp only [posRemSum] at this
        omega

theorem pushNextIfAny_positions (ctx : Ctx) (st : SimSt) (f : String) :
    (pushNextIfAny ctx st f).positions = st.positions := by
  unfold pushNextIfAny
  cases mapGet st.positions f <;> try rfl
  cases mapGet ctx.seriesByFile f <;> try rfl
  dsimp only []
  split_ifs <;> rfl

theorem pushNextIfAny_cash (ctx : Ctx) (st : SimSt) (f : String) :
    (pushNextIfAny ctx st f).cash = st.cash := by
  unfold pushNextIfAny
  cases mapGet st.positions f <;> try rfl
  cases mapGet ctx.seriesByFile f <;> try rfl
  dsimp only []
  split_ifs <;> rfl

theorem pushNextIfAny_trades (ctx : Ctx) (st : SimSt) (f : String) :
    (pushNextIfAny ctx st f).trades = st.trades := by
  unfold pushNextIfAny
  cases mapGet st.positions f <;> try rfl
  cases mapGet ctx.seriesByFile f <;> try rfl
  dsimp only []
  split_ifs <;> rfl

theorem pushNextIfAny_equityCurve (ctx : Ctx) (st : SimSt) (f : String) :
    (pushNextIfAny ctx st f).equityCurve = st.equityCurve := by
  unfold pushNextIfAny
  cases mapGet st.positions f <;> try rfl
  cases mapGet ctx.seriesByFile f <;> try rfl
  dsimp only []
  split_ifs <;> rfl

theorem pushNextIfAny_totalMV (ctx : Ctx) (st : SimSt) (f : String) :
    (pushNextIfAny ctx st f).totalMV = st.totalMV := by
  unfold pushNextIfAny
  cases mapGet st.positions f <;> try rfl
  cases mapGet ctx.seriesByFile f <;> try rfl
  dsimp only []
  split_ifs <;> rfl

theorem pushNextIfAny_heap_length (ctx : Ctx) (st : SimSt) (f : String) :
    (pushNextIfAny ctx st f).heap.length ≤ st.heap.length + 1 := by
  unfold pushNextIfAny
  cases mapGet st.positions f
  · simp
  cases mapGet ctx.seriesByFile f
  · simp
  dsimp only []
  split_ifs <;> simp [heapPush_length]

theorem remFor_eq (ctx : Ctx) (f : String) (pos : Pos) (s : SeriesData)
    (hs : mapGet ctx.seriesByFile f = some s) :
    remFor ctx f pos = ((s.datesYmd.length : ℤ) - pos.nextIdx).toNat := by
  unfold remFor
  rw [hs]

theorem simMu_pushNextIfAny_le (ctx : Ctx) (st : SimSt) (f : String) :
    simMu ctx (pushNextIfAny ctx st f) ≤ simMu ctx st + 1 := by
  have h1 := pushNextIfAny_positions ctx st f
  have h2 := pushNextIfAny_heap_length ctx st f
  simp only [simMu]
  rw [h1]
  omega

theorem applyPriceUpdate_mu_le (ctx : Ctx) (st : SimSt) (f : String)
    (newIdx : ℤ) (pos : Pos) (s : SeriesData)
    (hpos : mapGet st.positions f = some pos)
    (hs : mapGet ctx.seriesByFile f = some s)
    (hni : pos.nextIdx = newIdx) (hlo : 0 ≤ newIdx)
    (hhi : newIdx < (s.datesYmd.length : ℤ)) :
    simMu ctx (applyPriceUpdate ctx st f newIdx) ≤ simMu ctx st := by
  have hrem : remFor ctx f pos = ((s.datesYmd.length : ℤ) - newIdx).toNat := by
    rw [remFor_eq ctx f pos s hs, hni]
  unfold applyPriceUpdate
  rw [hpos, hs]
  dsimp only []
  split_ifs with hq
  · refine le_trans (simMu_pushNextIfAny_le ctx _ f) ?_
    have h3 := posRemSum_mapSet ctx st.positions f pos
      { pos with
        lastPrice := qGet s.closeAdj newIdx
        idx := newIdx
        nextIdx := newIdx + 1 } hpos
    have h4 : remFor ctx f
        { pos with
          lastPrice := qGet s.closeAdj newIdx
          idx := newIdx
          nextIdx := newIdx + 1 } =
        ((s.datesYmd.length : ℤ) - (newIdx + 1)).toNat := by
      rw [remFor_eq ctx f _ s hs]
    simp only [simMu]
    omega
  · refine le_trans (simMu_pushNextIfAny_le ctx _ f) ?_
    have h3 := posRemSum_mapSet ctx st.positions f pos
      { pos with
        idx := newIdx
        nextIdx := newIdx + 1 } hpos
    have h4 : remFor ctx f
        { pos with
          idx := newIdx
          nextIdx := newIdx + 1 } =
        ((s.datesYmd.length : ℤ) - (newIdx + 1)).toNat := by
      rw [remFor_eq ctx f _ s hs]
    simp only [simMu]
    omega

theorem drainStep_mu_lt (ctx : Ctx) (d : ℤ) (st : SimSt)
    (hne : st.heap ≠ []) :
    simMu ctx (drainStep ctx d st) < simMu ctx st := by
  obtain ⟨e, hpop, hlen⟩ := heapPop_length hne
  unfold drainStep
  rw [hpop]
  dsimp only []
  cases hp : mapGet st.positions e.file with
  | none =>
      simp only [simMu]
      omega
  | some pos =>
      cases hs : mapGet ctx.seriesByFile e.file with
      | none =>
          simp only [simMu]
          omega
      | some s =>
          dsimp only []
          split_ifs with hg
          · obtain ⟨hg1, hg2, _⟩ := hg
            have := applyPriceUpdate_mu_le ctx
              { st with heap := (heapPop st.heap).2 } e.file pos.nextIdx pos s
              hp hs rfl hg1 hg2
            simp only [simMu] at this ⊢
            omega
          · simp only [simMu]
            omega

/-- Inner while-loop shared by `flushUpdatesBefore` and `applyUpdatesAt`:
pop and apply every heap entry carrying exactly the date `d`. -/
def drainDate (ctx : Ctx) (d : ℤ) (st : SimSt) : SimSt :=
  match hp : heapPeek st.heap with
  | none => st
  | some top =>
      if top.date = d then drainDate ctx d (drainStep ctx d st) else st
termination_by simMu ctx st
decreasing_by
  have hne : st.heap ≠ [] := by
    simpa [heapPeek, List.head?_eq_none_iff] using
      (by rw [hp]; simp : heapPeek st.heap ≠ none)
  exact drainStep_mu_lt ctx d st hne

theorem drainDate_mu_le (ctx : Ctx) (d : ℤ) (st : SimSt) :
    simMu ctx (drainDate ctx d st) ≤ simMu ctx st := by
  have key : ∀ k st, simMu ctx st ≤ k →
      simMu ctx (drainDate ctx d st) ≤ simMu ctx st := by
    intro k
    induction k with
    | zero =>
        intro st hk
        rw [drainDate]
        cases hp : heapPeek st.heap with
        | none => simp
        | some top =>
            have hne : st.heap ≠ [] := by
              cases h : st.heap
              · rw [h] at hp; simp [heapPeek] at hp
              · simp [h]
            have := drainStep_mu_lt ctx d st hne
            omega
    | succ k ih =>
        intro st hk
        rw [drainDate]
        cases hp : heapPeek st.heap with
        | none => simp
        | some top =>
            dsimp only []
            split_ifs with hd
            · have hne : st.heap ≠ [] := by
                cases h : st.heap
                · rw [h] at hp; simp [heapPeek] at hp
                · simp [h]
              have h1 := drainStep_mu_lt ctx d st hne
              have h2 := ih (drainStep ctx d st) (by omega)
              omega
            · exact le_rfl
  exact key (simMu ctx st) st le_rfl

theorem drainDate_mu_lt (ctx : Ctx) (d : ℤ) (st : SimSt) (top : HeapE)
    (hp : heapPeek st.heap = some top) (hd : top.date = d) :
    simMu ctx (drainDate ctx d st) < simMu ctx st := by
  have hne : st.heap ≠ [] := by
    cases h : st.heap
    · rw [h] at hp; simp [heapPeek] at hp
    · simp [h]
  rw [drainDate]
  rw [hp]
  dsimp only []
  rw [if_pos hd]
  have h1 := drainStep_mu_lt ctx d st hne
  have h2 := drainDate_mu_le ctx d (drainStep ctx d st)
  omega

/-- `applyUpdatesAt(dateInclusive)`: the code's nested pair of identical
same-date while loops; each outer pass runs the inner drain. -/
def applyUpdatesAt (ctx : Ctx) (d : ℤ) (st : SimSt) : SimSt :=
  match hp : heapPeek st.heap with
  | none => st
  | some top =>
      if hd : top.date = d then applyUpdatesAt ctx d (drainDate ctx d st)
      else st
termination_by simMu ctx st
decreasing_by
  exact drainDate_mu_lt ctx d st top hp hd

/-- `flushUpdatesBefore(dateExclusive)`: drain strictly earlier dates one
date-group at a time, pushing one equity point per drained date. -/
def flushBefore (ctx : Ctx) (x : ℤ) (st : SimSt) : SimSt :=
  match hp : heapPeek st.heap with
  | none => st
  | some top =>
      if hlt : top.date < x then
        let st' := drainDate ctx top.date st
        flushBefore ctx x
          { st' with equityCurve :=
              pushEquityPoint st'.equityCurve top.date (st'.cash + st'.totalMV) }
      else st
termination_by simMu ctx st
decreasing_by
  have h1 := drainDate_mu_lt ctx top.date st top hp rfl
  simpa [simMu] using h1

/-- The `1e-9` cash tolerance of the buy commitment check. -/
def buyEps : ℚ := 1 / 1000000000

/-- `sellOne(ev)`: settle a sell event. A missing position or a non-positive
execution price returns with the state unchanged (no error is raised). -/
def sellOne (ctx : Ctx) (st : SimSt) (ev : Ev) : SimSt :=
  match mapGet st.positions ev.file with
  | none => st
  | some pos =>
      let px := ev.price
      if 0 < px then
        let st1 :=
          if pos.lastPrice ≠ px then
            { st with
              totalMV := st.totalMV + pos.shares * (px - pos.lastPrice)
              positions := mapSet st.positions ev.file
                { pos with lastPrice := px } }
          else st
        let gross := pos.shares * px
        let fee := gross * ctx.feeRate
        let stamp := gross * ctx.stampRate
        let net := gross - fee - stamp
        let pnl := net - pos.costBasis
        let ret := if 0 < pos.costBasis then pnl / pos.costBasis else 0
        { st1 with
          cash := st1.cash + net
          totalMV := st1.totalMV - pos.shares * px
          trades := st1.trades ++
            [⟨ev.file, pos.entryDate, ev.date, pos.entryPrice, px, pos.shares,
              pnl, ret, ev.reason⟩]
          positions := mapDelete st1.positions ev.file }
      else st

/-- The day loop's sell pass: `for (ev of todays) if (sell) sellOne(ev)`. -/
def sellPhase (ctx : Ctx) (st : SimSt) (evs : List Ev) : SimSt :=
  evs.foldl (sellOne ctx) st

/-- `canBuyAtBudget(ev, budget)`: at least one lot is affordable at the
per-candidate budget. -/
def canBuyAtBudget (ctx : Ctx) (budget : ℚ) (ev : Ev) : Bool :=
  decide (0 < (⌊budget / (ev.price * ctx.lot)⌋ : ℚ) * ctx.lot)

/-- The commit pass of `buyWithEqualBudget`: for the `k`-th candidate the
live per-head budget is `cash / (candidates.length - k)`, i.e.
`cash / (rest.length + 1)` here. -/
def commitList (ctx : Ctx) (st : SimSt) (cands : List Ev) : SimSt :=
  match cands with
  | [] => st
  | ev :: rest =>
      let px := ev.price
      let budgetNow := st.cash / ((rest.length : ℚ) + 1)
      let qty0 : ℚ := (⌊budgetNow / (px * ctx.lot)⌋ : ℚ) * ctx.lot
      let maxQty : ℚ := (⌊st.cash / (px * ctx.lot)⌋ : ℚ) * ctx.lot
      let qty := if maxQty < qty0 then maxQty else qty0
      if qty ≤ 0 then commitList ctx st rest
      else
        let gross := qty * px
        let fee := gross * ctx.feeRate
        let cost := gross + fee
        if st.cash + buyEps < cost then commitList ctx st rest
        else
          let st' := { st with
            cash := st.cash - cost
            positions := mapSet st.positions ev.file
              ⟨qty, px, ev.execIdx, ev.execIdx + 1, ev.date, px, cost⟩
            totalMV := st.totalMV + qty * px }
          commitList ctx (pushNextIfAny ctx st' ev.file) rest

/-- The fixed-point narrowing loop of `buyWithEqualBudget`. -/
def buyLoop (ctx : Ctx) (st : SimSt) (cands : List Ev) : SimSt :=
  if hc : cands = [] then st
  else
    let budget := st.cash / (cands.length : ℚ)
    let buyable := cands.filter (canBuyAtBudget ctx budget)
    if buyable.length = cands.length then commitList ctx st cands
    else if buyable.length = 0 then st
    else buyLoop ctx st buyable
termination_by cands.length
decreasing_by
  have hle : buyable.length ≤ cands.length := List.length_filter_le _ _
  have heq : buyable.length = (List.filter
      (canBuyAtBudget ctx (st.cash / (cands.length : ℚ))) cands).length := rfl
  omega

/-- `buyWithEqualBudget(buyEvents)`: filter to not-already-held candidates,
then run the narrowing loop. -/
def buyWithEqualBudget (ctx : Ctx) (st : SimSt) (buyEvents : List Ev) :
    SimSt :=
  let candidates0 := buyEvents.filter
    (fun ev => (mapGet st.positions ev.file).isNone)
  if candidates0 = [] then st
  else buyLoop ctx st candidates0

/-- Rank used by the event comparator for same-day ties: sells before buys. -/
def evTypeRank (t : EvType) : Nat :=
  match t with
  | EvType.sell => 0
  | EvType.buy => 1

/-- The event comparator of `simulatePortfolioEqualWeight` as a total
preorder: by date, then sells before buys, then security id. -/
def evLE (a b : Ev) : Bool :=
  decide (a.date < b.date ∨ (a.date = b.date ∧
    (evTypeRank a.type < evTypeRank b.type ∨
      (evTypeRank a.type = evTypeRank b.type ∧ a.file ≤ b.file))))

/-- Run configuration of `simulatePortfolioEqualWeight`. -/
structure Cfg where
  startYmd : ℤ
  endYmd : ℤ
  initialCapital : ℚ
  lot : ℚ
  feeBps : ℚ
  stampBps : ℚ

/-- In-window filter plus the stable sort producing `sortedEvents` (every
modelled event date is a finite number). -/
def sortedEventsOf (cfg : Cfg) (events : List Ev) : List Ev :=
  (events.filter
    (fun e => decide (cfg.startYmd ≤ e.date) && decide (e.date ≤ cfg.endYmd))
  ).mergeSort evLE

/-- `List.dropWhile` never lengthens a list. -/
theorem dropWhile_length_le {α : Type} (p : α → Bool) (l : List α) :
    (l.dropWhile p).length ≤ l.length := by
  induction l with
  | nil => simp
  | cons x xs ih =>
      rw [List.dropWhile_cons]
      split_ifs <;> simp <;> omega

/-- The main replay loop over day groups of the sorted event stream. -/
def simLoop (ctx : Ctx) (st : SimSt) (evs : List Ev) : SimSt :=
  match evs with
  | [] => st
  | e :: tl =>
      let d := e.date
      let st1 := flushBefore ctx d st
      let st2 := applyUpdatesAt ctx d st1
      let todays := (e :: tl).takeWhile (fun x => decide (x.date = d))
      let rest := (e :: tl).dropWhile (fun x => decide (x.date = d))
      let st3 := sellPhase ctx st2
        (todays.filter (fun x => decide (x.type = EvType.sell)))
      let st4 := buyWithEqualBudget ctx st3
        (todays.filter (fun x => decide (x.type = EvType.buy)))
      let st5 := { st4 with
        equityCurve := pushEquityPoint st4.equityCurve d (st4.cash + st4.totalMV) }
      simLoop ctx st5 rest
termination_by evs.length
decreasing_by
  rename_i tl0
  have hd := dropWhile_length_le (fun x => decide (x.date = ev.date)) tl0
  simp [List.dropWhile_cons]
  omega

/-- Initial engine state of a run. -/
def initSt (cfg : Cfg) : SimSt := ⟨cfg.initialCapital, [], [], [], 0, []⟩

/-- The run context derived from the inputs and configuration. -/
def mkCtx (seriesByFile : List (String × SeriesData)) (cfg : Cfg) : Ctx :=
  ⟨seriesByFile, cfg.endYmd, cfg.lot, cfg.feeBps / 10000, cfg.stampBps / 10000⟩

/-- The complete replay of `simulatePortfolioEqualWeight` up to (and
including) the trailing `flushUpdatesBefore(endYmd + 1)`; returns the final
internal engine state. -/
def simulateEqualWeightState (seriesByFile : List (String × SeriesData))
    (events : List Ev) (cfg : Cfg) : SimSt :=
  let ctx := mkCtx seriesByFile cfg
  flushBefore ctx (cfg.endYmd + 1)
    (simLoop ctx (initSt cfg) (sortedEventsOf cfg events))

/-- Summary record returned by `simulatePortfolioEqualWeight`; a `NaN`
win-rate / average return (zero trades) is modelled by `none`. -/
structure SimResult where
  finalEquity : ℚ
  totalReturn : ℚ
  maxDrawdown : ℚ
  trades : List Trade
  winRate : Option ℚ
  avgTradeRet : Option ℚ
  equityCurve : List (ℤ × ℚ)

/-- The configuration checks at the top of `simulatePortfolioEqualWeight`
(`startYmd`/`endYmd` are modelled as numbers, so their `isFinite` test
holds). -/
def cfgOk (cfg : Cfg) : Prop :=
  0 < cfg.initialCapital ∧ 0 < cfg.lot ∧ 0 ≤ cfg.feeBps ∧ 0 ≤ cfg.stampBps

instance (cfg : Cfg) : Decidable (cfgOk cfg) := by
  unfold cfgOk
  infer_instance

/-- `simulatePortfolioEqualWeight`: configuration checks, replay, summary. -/
def simulatePortfolioEqualWeight (seriesByFile : List (String × SeriesData))
    (events : List Ev) (cfg : Cfg) : Except String SimResult :=
  if ¬ 0 < cfg.initialCapital then Except.error "initialCapital must be positive"
  else if ¬ 0 < cfg.lot then Except.error "lot must be positive"
  else if ¬ 0 ≤ cfg.feeBps then Except.error "feeBps must be nonnegative"
  else if ¬ 0 ≤ cfg.stampBps then Except.error "stampBps must be nonnegative"
  else
    let st := simulateEqualWeightState seriesByFile events cfg
    let finalEquity := st.cash + st.totalMV
    let winTrades := (st.trades.filter (fun t => decide (0 < t.pnl))).length
    Except.ok
      { finalEquity := finalEquity
        totalReturn := finalEquity / cfg.initialCapital - 1
        maxDrawdown := (computeMaxDrawdown st.equityCurve).maxDrawdown
        trades := st.trades
        winRate := if st.trades.length = 0 then none
          else some ((winTrades : ℚ) / (st.trades.length : ℚ))
        avgTradeRet := if st.trades.length = 0 then none
          else some ((st.trades.map Trade.ret).sum / (st.trades.length : ℚ))
        equityCurve := st.equityCurve }

theorem ddStep_from_eq_to (acc : DdAcc) (p : ℤ × ℚ)
    (h : acc.ddFrom = acc.ddTo) :
    (ddStep acc p).ddFrom = (ddStep acc p).ddTo := by
  unfold ddStep
  dsimp only []
  split_ifs <;> simp [h]

theorem foldl_ddStep_from_eq_to (l : List (ℤ × ℚ)) (acc : DdAcc)
    (h : acc.ddFrom = acc.ddTo) :
    (l.foldl ddStep acc).ddFrom = (l.foldl ddStep acc).ddTo := by
  induction l generalizing acc with
  | nil => simpa using h
  | cons p tl ih => exact ih (ddStep acc p) (ddStep_from_eq_to acc p h)

/-- C2 (counterexample): on the curve `[(d1,100),(d2,120),(d3,90),(d4,110)]`
(dates 1..4) the code reports `maxDrawdownFrom = d3` — the trough's date —
not the peak's date `d2` that the claim asserts. -/
theorem C2_counterexample :
    computeMaxDrawdown [(1, 100), (2, 120), (3, 90), (4, 110)] =
      ⟨1 / 4, some 3, some 3⟩ ∧
    (computeMaxDrawdown
      [(1, 100), (2, 120), (3, 90), (4, 110)]).maxDrawdownFrom ≠ some 2 := by
  have h : computeMaxDrawdown [(1, 100), (2, 120), (3, 90), (4, 110)] =
      ⟨1 / 4, some 3, some 3⟩ := by
    norm_num [computeMaxDrawdown, ddStep]
  exact ⟨h, by rw [h]; simp⟩

/-- C2 (amended): `computeMaxDrawdown` on the curve
`[(d1,100),(d2,120),(d3,90),(d4,110)]` returns `maxDrawdown = 0.25`, but both
reported dates are the trough's date of the first point achieving the maximum
drawdown (`d3` here); in general `maxDrawdownFrom = maxDrawdownTo` on every
curve, so the peak's date is never reported. -/
theorem C2_amended_drawdown :
    computeMaxDrawdown [(1, 100), (2, 120), (3, 90), (4, 110)] =
      ⟨1 / 4, some 3, some 3⟩ ∧
    ∀ curve : List (ℤ × ℚ),
      (computeMaxDrawdown curve).maxDrawdownFrom =
        (computeMaxDrawdown curve).maxDrawdownTo := by
  constructor
  · norm_num [computeMaxDrawdown, ddStep]
  · intro curve
    unfold computeMaxDrawdown
    exact foldl_ddStep_from_eq_to curve ⟨none, 0, none, none⟩ rfl

/-- C5 (counterexample): settling a sell event against a portfolio with no
open position for that security does not raise: `sellOne` returns normally
with the state unchanged (here: empty positions, cash 1000). The engine in
fact relies on this silent no-op, because `buildExecutionEvents` emits a
forced sell for every security with in-window data, bought or not. -/
theorem C5_counterexample :
    sellOne (mkCtx [] ⟨1, 2, 1000, 100, 0, 0⟩)
      ⟨1000, [], [], [], 0, []⟩
      ⟨1, EvType.sell, "a", 0, 10, "signal_exit"⟩ =
      ⟨1000, [], [], [], 0, []⟩ := by
  rfl

/-- C5 (amended): a sell event for a security with no open position is
silently absorbed: for every state whose positions map has no entry for the
event's security id, `sellOne` returns the state unchanged and raises no
error. -/
theorem C5_amended_sell_noop (ctx : Ctx) (st : SimSt) (ev : Ev)
    (h : mapGet st.positions ev.file = none) :
    sellOne ctx st ev = st := by
  unfold sellOne
  rw [h]

/-- C5 witness: the amended no-op fact applied at a concrete input. -/
theorem C5_witness :
    mapGet (SimSt.positions ⟨1000, [], [], [], 0, []⟩) "a" = none ∧
    sellOne (mkCtx [] ⟨1, 2, 1000, 100, 0, 0⟩) ⟨1000, [], [], [], 0, []⟩
      ⟨1, EvType.sell, "a", 0, 10, "x"⟩ = ⟨1000, [], [], [], 0, []⟩ :=
  ⟨rfl, C5_amended_sell_noop _ _ _ rfl⟩

/-- C7: net sell proceeds are `shares*price*(1 - feeBps/10000 - stampBps/10000)`
(stamp tax on the sell side only), the committed buy cost is
`qty*price*(1 + feeBps/10000)` (fee only), and concretely selling 100 shares
at price 10 with `feeBps = 10`, `stampBps = 10` credits exactly 998. -/
theorem C7_fee_application :
    (∀ (ctx : Ctx) (st : SimSt) (ev : Ev) (pos : Pos),
      mapGet st.positions ev.file = some pos → 0 < ev.price →
      (sellOne ctx st ev).cash =
        st.cash + pos.shares * ev.price * (1 - ctx.feeRate - ctx.stampRate)) ∧
    (∀ (ctx : Ctx) (st : SimSt) (ev : Ev) (q : ℚ),
      q = (⌊st.cash / (ev.price * ctx.lot)⌋ : ℚ) * ctx.lot →
      ¬ q ≤ 0 → ¬ st.cash + buyEps < q * ev.price + q * ev.price * ctx.feeRate →
      (commitList ctx st [ev]).cash =
        st.cash - q * ev.price * (1 + ctx.feeRate)) ∧
    (sellOne (mkCtx [] ⟨1, 2, 1000000, 100, 10, 10⟩)
        ⟨0, [("a", ⟨100, 10, 0, 1, 1, 10, 1000⟩)], [], [], 1000, []⟩
        ⟨2, EvType.sell, "a", 1, 10, "signal_exit"⟩).cash = 998 := by
  refine ⟨?_, ?_, ?_⟩
  · intro ctx st ev pos hpos hpx
    unfold sellOne
    rw [hpos]
    dsimp only []
    rw [if_pos hpx]
    split_ifs <;> (dsimp only []; ring)
  · intro ctx st ev q hq h1 h2
    unfold commitList
    dsimp only []
    have hq' : (⌊st.cash / ((([] : List Ev).length : ℚ) + 1) /
        (ev.price * ctx.lot)⌋ : ℚ) * ctx.lot = q := by
      rw [hq]
      norm_num
    rw [hq']
    have hmin : (if (⌊st.cash / (ev.price * ctx.lot)⌋ : ℚ) * ctx.lot < q
        then (⌊st.cash / (ev.price * ctx.lot)⌋ : ℚ) * ctx.lot else q) = q := by
      rw [← hq]
      simp
    rw [hmin]
    rw [if_neg h1, if_neg h2]
    unfold commitList
    rw [pushNextIfAny_cash]
    ring
  · norm_num [sellOne, mapGet, mkCtx]

/-- C3 (counterexample): three equally-priced same-day buy candidates
(price 10, lot 100, zero fees) and cash 2000 — enough for exactly two lots
(`2*10*100 ≤ 2000 < 3*10*100`). The per-candidate budget `2000/3` affords no
lot, so the narrowing loop exits immediately and the allocator buys
*nothing*: the state is returned unchanged, no position is opened for any of
the three candidates. The claim's "buys 2, skips 1" does not happen. -/
theorem C3_counterexample :
    buyWithEqualBudget (mkCtx [] ⟨1, 2, 2000, 100, 0, 0⟩)
      ⟨2000, [], [], [], 0, []⟩
      [⟨1, EvType.buy, "a", 0, 10, "signal_entry"⟩,
       ⟨1, EvType.buy, "b", 0, 10, "signal_entry"⟩,
       ⟨1, EvType.buy, "c", 0, 10, "signal_entry"⟩] =
      ⟨2000, [], [], [], 0, []⟩ ∧
    (2 : ℚ) * 10 * 100 ≤ 2000 ∧ (2000 : ℚ) < 3 * 10 * 100 := by
  refine ⟨?_, by norm_num, by norm_num⟩
  rw [buyWithEqualBudget]
  norm_num [mapGet]
  rw [buyLoop]
  norm_num [canBuyAtBudget, mkCtx, List.filter]

/-- C3 (amended): with 3 equally-priced same-day buy candidates, none already
held, positive price and lot, and cash short of 3 lots (in particular cash
enough for exactly 2 lots), the equal-budget check `floor((cash/3)/(p*lot))`
fails for all three candidates at once, so the allocator exits without buying:
no candidate is filled, partially or at all, and the state is unchanged. -/
theorem C3_amended_allocator (ctx : Ctx) (st : SimSt) (p : ℚ)
    (e1 e2 e3 : Ev)
    (hp1 : e1.price = p) (hp2 : e2.price = p) (hp3 : e3.price = p)
    (hn1 : mapGet st.positions e1.file = none)
    (hn2 : mapGet st.positions e2.file = none)
    (hn3 : mapGet st.positions e3.file = none)
    (hppos : 0 < p) (hlot : 0 < ctx.lot)
    (hlo : 2 * (p * ctx.lot) ≤ st.cash)
    (hhi : st.cash < 3 * (p * ctx.lot)) :
    buyWithEqualBudget ctx st [e1, e2, e3] = st := by
  have hpl : 0 < p * ctx.lot := mul_pos hppos hlot
  have hfloor : ∀ e : Ev, e.price = p →
      canBuyAtBudget ctx (st.cash / 3) e = false := by
    intro e hpe
    unfold canBuyAtBudget
    rw [hpe]
    have hb0 : (0 : ℚ) ≤ st.cash / 3 / (p * ctx.lot) := by
      apply div_nonneg (div_nonneg (by nlinarith) (by norm_num)) hpl.le
    have hb1 : st.cash / 3 / (p * ctx.lot) < 1 := by
      rw [div_div, div_lt_one (by positivity)]
      nlinarith
    have : ⌊st.cash / 3 / (p * ctx.lot)⌋ = 0 := by
      rw [Int.floor_eq_zero_iff]
      exact ⟨hb0, hb1⟩
    rw [this]
    simp
  rw [buyWithEqualBudget]
  simp only [List.filter, hn1, hn2, hn3, Option.isNone_none]
  norm_num
  rw [buyLoop]
  simp only [List.length_cons, List.length_nil]
  norm_num
  have h1 := hfloor e1 hp1
  have h2 := hfloor e2 hp2
  have h3 := hfloor e3 hp3
  simp only [List.filter]
  norm_num
  rw [h1, h2, h3]
  simp

/-- C3 witness: the amended statement applied at the counterexample's
concrete input (price 10, lot 100, cash 2000). -/
theorem C3_witness :
    buyWithEqualBudget (mkCtx [] ⟨1, 2, 2000, 100, 0, 0⟩)
      ⟨2000, [("z", ⟨100, 10, 0, 1, 1, 10, 1000⟩)], [], [], 1000, []⟩
      [⟨1, EvType.buy, "a", 0, 10, "signal_entry"⟩,
       ⟨1, EvType.buy, "b", 0, 10, "signal_entry"⟩,
       ⟨1, EvType.buy, "c", 0, 10, "signal_entry"⟩] =
      ⟨2000, [("z", ⟨100, 10, 0, 1, 1, 10, 1000⟩)], [], [], 1000, []⟩ :=
  C3_amended_allocator _ _ 10 _ _ _ rfl rfl rfl rfl rfl rfl
    (by norm_num) (by norm_num [mkCtx]) (by norm_num [mkCtx])
    (by norm_num [mkCtx])

/-- C7 witness: both fee formulas applied at concrete inputs (sell: 100
shares at 10 with 10 bps fee and stamp; buy: 100 shares at 10, zero fee). -/
theorem C7_witness :
    (sellOne (mkCtx [] ⟨1, 2, 1000000, 100, 10, 10⟩)
        ⟨0, [("a", ⟨100, 10, 0, 1, 1, 10, 1000⟩)], [], [], 1000, []⟩
        ⟨2, EvType.sell, "a", 1, 10, "signal_exit"⟩).cash =
      (0 : ℚ) + 100 * 10 * (1 - (mkCtx [] ⟨1, 2, 1000000, 100, 10, 10⟩).feeRate
        - (mkCtx [] ⟨1, 2, 1000000, 100, 10, 10⟩).stampRate) ∧
    (commitList (mkCtx [] ⟨1, 2, 1000000, 100, 0, 0⟩)
        ⟨1000, [], [], [], 0, []⟩
        [⟨1, EvType.buy, "b", 0, 10, "signal_entry"⟩]).cash =
      (1000 : ℚ) - 100 * 10 *
        (1 + (mkCtx [] ⟨1, 2, 1000000, 100, 0, 0⟩).feeRate) := by
  constructor
  · exact C7_fee_application.1 (mkCtx [] ⟨1, 2, 1000000, 100, 10, 10⟩)
      ⟨0, [("a", ⟨100, 10, 0, 1, 1, 10, 1000⟩)], [], [], 1000, []⟩
      ⟨2, EvType.sell, "a", 1, 10, "signal_exit"⟩
      ⟨100, 10, 0, 1, 1, 10, 1000⟩ (by simp [mapGet]) (by norm_num)
  · exact C7_fee_application.2.1 (mkCtx [] ⟨1, 2, 1000000, 100, 0, 0⟩)
      ⟨1000, [], [], [], 0, []⟩
      ⟨1, EvType.buy, "b", 0, 10, "signal_entry"⟩ 100
      (by norm_num [mkCtx]) (by norm_num) (by norm_num [mkCtx, buyEps])

/-- The narrowing loop of `buyWithEqualBudget` with an explicit iteration
bound (fuel), as the spec's porting note recommends. -/
def buyLoopFuel (ctx : Ctx) (fuel : Nat) (st : SimSt) (cands : List Ev) :
    SimSt :=
  match fuel with
  | 0 => st
  | fuel' + 1 =>
      if cands = [] then st
      else
        let budget := st.cash / (cands.length : ℚ)
        let buyable := cands.filter (canBuyAtBudget ctx budget)
        if buyable.length = cands.length then commitList ctx st cands
        else if buyable.length = 0 then st
        else buyLoopFuel ctx fuel' st buyable

/-- C8: the fixed-point narrowing loop terminates for every candidate list,
cash value and lot/price assignment: it reaches its result within
`|candidates|` iterations (any fuel beyond `|candidates|` computes exactly
the unbounded loop), because each iteration either commits all candidates,
exits with no affordable candidate, or recurses on a strictly shorter list. -/
theorem C8_allocator_terminates :
    (∀ (ctx : Ctx) (st : SimSt) (cands : List Ev) (fuel : Nat),
      cands.length < fuel →
      buyLoopFuel ctx fuel st cands = buyLoop ctx st cands) ∧
    (∀ (ctx : Ctx) (st : SimSt) (cands : List Ev), cands ≠ [] →
      buyLoop ctx st cands = commitList ctx st cands ∨
      buyLoop ctx st cands = st ∨
      ∃ buyable, buyable =
          cands.filter (canBuyAtBudget ctx (st.cash / (cands.length : ℚ))) ∧
        buyable.length < cands.length ∧
        buyLoop ctx st cands = buyLoop ctx st buyable) := by
  constructor
  · intro ctx st cands fuel
    induction fuel generalizing st cands with
    | zero => intro h; omega
    | succ n ih =>
        intro h
        rw [buyLoopFuel, buyLoop]
        by_cases hc : cands = []
        · simp [hc]
        · rw [if_neg hc, dif_neg hc]
          dsimp only []
          split_ifs with hall hnone
          · rfl
          · rfl
          · have hle : (cands.filter
                (canBuyAtBudget ctx (st.cash / (cands.length : ℚ)))).length ≤
                cands.length := List.length_filter_le _ _
            exact ih st _ (by omega)
  · intro ctx st cands hc
    rw [buyLoop]
    rw [dif_neg hc]
    dsimp only []
    split_ifs with hall hnone
    · exact Or.inl rfl
    · exact Or.inr (Or.inl rfl)
    · refine Or.inr (Or.inr ⟨_, rfl, ?_, ?_⟩)
      · have hle := List.length_filter_le
          (canBuyAtBudget ctx (st.cash / (cands.length : ℚ))) cands
        omega
      · rfl

/-- C8 witness: fuel sufficiency and the shrink-or-exit alternative at a
concrete three-candidate input. -/
theorem C8_witness :
    buyLoopFuel (mkCtx [] ⟨1, 2, 2000, 100, 0, 0⟩) 4
        ⟨2000, [], [], [], 0, []⟩
        [⟨1, EvType.buy, "a", 0, 10, "signal_entry"⟩,
         ⟨1, EvType.buy, "b", 0, 10, "signal_entry"⟩,
         ⟨1, EvType.buy, "c", 0, 10, "signal_entry"⟩] =
      buyLoop (mkCtx [] ⟨1, 2, 2000, 100, 0, 0⟩)
        ⟨2000, [], [], [], 0, []⟩
        [⟨1, EvType.buy, "a", 0, 10, "signal_entry"⟩,
         ⟨1, EvType.buy, "b", 0, 10, "signal_entry"⟩,
         ⟨1, EvType.buy, "c", 0, 10, "signal_entry"⟩] :=
  C8_allocator_terminates.1 _ _ _ 4 (by norm_num)

theorem sellOne_of_no_position (ctx : Ctx) (st : SimSt) (ev : Ev)
    (h : mapGet st.positions ev.file = none) : sellOne ctx st ev = st := by
  unfold sellOne
  rw [h]

theorem sellOne_of_bad_price (ctx : Ctx) (st : SimSt) (ev : Ev) (pos : Pos)
    (h : mapGet st.positions ev.file = some pos) (hpx : ¬ 0 < ev.price) :
    sellOne ctx st ev = st := by
  unfold sellOne
  rw [h]
  dsimp only []
  rw [if_neg hpx]

theorem sellOne_cash_formula (ctx : Ctx) (st : SimSt) (ev : Ev) (pos : Pos)
    (h : mapGet st.positions ev.file = some pos) (hpx : 0 < ev.price) :
    (sellOne ctx st ev).cash =
      st.cash + pos.shares * ev.price * (1 - ctx.feeRate - ctx.stampRate) := by
  unfold sellOne
  rw [h]
  dsimp only []
  rw [if_pos hpx]
  split_ifs <;> (dsimp only []; ring)

/-- The net cash credited over a sell pass: for each event that actually
settles (open position, positive price), the net proceeds
`shares*price*(1 - feeRate - stampRate)` of that settlement. -/
def sellCredit (ctx : Ctx) (st : SimSt) (evs : List Ev) : ℚ :=
  match evs with
  | [] => 0
  | ev :: rest =>
      match mapGet st.positions ev.file with
      | none => sellCredit ctx st rest
      | some pos =>
          if 0 < ev.price then
            pos.shares * ev.price * (1 - ctx.feeRate - ctx.stampRate) +
              sellCredit ctx (sellOne ctx st ev) rest
          else sellCredit ctx st rest

theorem sellCredit_cons_none (ctx : Ctx) (st : SimSt) (ev : Ev)
    (rest : List Ev) (h : mapGet st.positions ev.file = none) :
    sellCredit ctx st (ev :: rest) = sellCredit ctx st rest := by
  conv_lhs => unfold sellCredit
  rw [h]

theorem sellCredit_cons_settled (ctx : Ctx) (st : SimSt) (ev : Ev)
    (rest : List Ev) (pos : Pos)
    (h : mapGet st.positions ev.file = some pos) (hpx : 0 < ev.price) :
    sellCredit ctx st (ev :: rest) =
      pos.shares * ev.price * (1 - ctx.feeRate - ctx.stampRate) +
        sellCredit ctx (sellOne ctx st ev) rest := by
  conv_lhs => unfold sellCredit
  rw [h]
  dsimp only []
  rw [if_pos hpx]

theorem sellCredit_cons_badpx (ctx : Ctx) (st : SimSt) (ev : Ev)
    (rest : List Ev) (pos : Pos)
    (h : mapGet st.positions ev.file = some pos) (hpx : ¬ 0 < ev.price) :
    sellCredit ctx st (ev :: rest) = sellCredit ctx st rest := by
  conv_lhs => unfold sellCredit
  rw [h]
  dsimp only []
  rw [if_neg hpx]

theorem sellPhase_cash (ctx : Ctx) (st : SimSt) (evs : List Ev) :
    (sellPhase ctx st evs).cash = st.cash + sellCredit ctx st evs := by
  induction evs generalizing st with
  | nil => simp [sellPhase, sellCredit]
  | cons ev rest ih =>
      have hstep : sellPhase ctx st (ev :: rest) =
          sellPhase ctx (sellOne ctx st ev) rest := rfl
      rw [hstep, ih]
      cases hp : mapGet st.positions ev.file with
      | none =>
          rw [sellOne_of_no_position ctx st ev hp,
            sellCredit_cons_none ctx st ev rest hp]
      | some pos =>
          by_cases hpx : 0 < ev.price
          · rw [sellCredit_cons_settled ctx st ev rest pos hp hpx,
              sellOne_cash_formula ctx st ev pos hp hpx]
            ring
          · rw [sellOne_of_bad_price ctx st ev pos hp hpx,
              sellCredit_cons_badpx ctx st ev rest pos hp hpx]

theorem evLE_trans (a b c : Ev) (hab : evLE a b = true) (hbc : evLE b c = true) :
    evLE a c = true := by
  simp only [evLE, decide_eq_true_eq] at hab hbc ⊢
  rcases hab with h1 | ⟨e1, h1⟩ <;> rcases hbc with h2 | ⟨e2, h2⟩
  · exact Or.inl (lt_trans h1 h2)
  · exact Or.inl (by omega)
  · exact Or.inl (by omega)
  · refine Or.inr ⟨e1.trans e2, ?_⟩
    rcases h1 with r1 | ⟨er1, f1⟩ <;> rcases h2 with r2 | ⟨er2, f2⟩
    · exact Or.inl (lt_trans r1 r2)
    · exact Or.inl (by omega)
    · exact Or.inl (by omega)
    · exact Or.inr ⟨er1.trans er2, le_trans f1 f2⟩

theorem evLE_total (a b : Ev) : (evLE a b || evLE b a) = true := by
  simp only [evLE, Bool.or_eq_true, decide_eq_true_eq]
  rcases lt_trichotomy a.date b.date with h | h | h
  · exact Or.inl (Or.inl h)
  · rcases lt_trichotomy (evTypeRank a.type) (evTypeRank b.type) with r | r | r
    · exact Or.inl (Or.inr ⟨h, Or.inl r⟩)
    · rcases le_total a.file b.file with f | f
      · exact Or.inl (Or.inr ⟨h, Or.inr ⟨r, f⟩⟩)
      · exact Or.inr (Or.inr ⟨h.symm, Or.inr ⟨r.symm, f⟩⟩)
    · exact Or.inr (Or.inr ⟨h.symm, Or.inl r⟩)
  · exact Or.inr (Or.inl h)

theorem evTypeRank_eq_one (t : EvType) (h : evTypeRank t = 1) :
    t = EvType.buy := by
  cases t
  · simp [evTypeRank] at h
  · rfl

/-- In a list sorted by the event comparator, among equal-date entries no
sell follows a buy. -/
theorem mergeSort_no_sell_after_buy (l : List Ev)
    (i j : Fin (l.mergeSort evLE).length) (hij : i < j)
    (hdate : ((l.mergeSort evLE).get i).date = ((l.mergeSort evLE).get j).date)
    (hb : ((l.mergeSort evLE).get i).type = EvType.buy) :
    ((l.mergeSort evLE).get j).type = EvType.buy := by
  have hpw := @List.sorted_mergeSort Ev evLE evLE_trans evLE_total l
  rw [List.pairwise_iff_get] at hpw
  have hle := hpw i j hij
  simp only [evLE, decide_eq_true_eq] at hle
  rcases hle with h | ⟨_, hr⟩
  · omega
  · cases hty : ((l.mergeSort evLE).get j).type with
    | sell =>
        exfalso
        rw [hb, hty] at hr
        simp [evTypeRank] at hr
    | buy => rfl

/-- C6: (i) in the settlement order produced by the event sort, among
same-date events no sell ever follows a buy — in particular a same-date
sell/buy pair for one security settles the sell first; (ii) the sell pass
that runs before the day's buy allocation credits cash with exactly the net
proceeds of every settled sell, so that cash is what the equal-weight buy
allocator divides. -/
theorem C6_sell_before_buy :
    (∀ (cfg : Cfg) (events : List Ev)
      (i j : Fin (sortedEventsOf cfg events).length), i < j →
      ((sortedEventsOf cfg events).get i).date =
        ((sortedEventsOf cfg events).get j).date →
      ((sortedEventsOf cfg events).get i).type = EvType.buy →
      ((sortedEventsOf cfg events).get j).type = EvType.buy) ∧
    (∀ (ctx : Ctx) (st : SimSt) (evs : List Ev),
      (sellPhase ctx st evs).cash = st.cash + sellCredit ctx st evs) ∧
    (∀ (ctx : Ctx) (st : SimSt) (ev : Ev) (tl : List Ev),
      simLoop ctx st (ev :: tl) =
        simLoop ctx
          (let st2 := applyUpdatesAt ctx ev.date (flushBefore ctx ev.date st)
           let todays := (ev :: tl).takeWhile
             (fun x => decide (x.date = ev.date))
           let st3 := sellPhase ctx st2
             (todays.filter (fun x => decide (x.type = EvType.sell)))
           let st4 := buyWithEqualBudget ctx st3
             (todays.filter (fun x => decide (x.type = EvType.buy)))
           { st4 with equityCurve :=
               pushEquityPoint st4.equityCurve ev.date (st4.cash + st4.totalMV) })
          ((ev :: tl).dropWhile (fun x => decide (x.date = ev.date)))) := by
  refine ⟨?_, sellPhase_cash, ?_⟩
  · intro cfg events i j hij hdate htyi
    exact mergeSort_no_sell_after_buy _ i j hij hdate htyi
  · intro ctx st ev tl
    rw [simLoop]

theorem c6_len :
    (sortedEventsOf ⟨1, 2, 1000, 100, 0, 0⟩
      [⟨1, EvType.buy, "a", 0, 10, "x"⟩,
       ⟨1, EvType.buy, "a", 0, 10, "y"⟩]).length = 2 := by
  simp only [sortedEventsOf, List.mergeSort, List.merge, List.filter]
  norm_num

/-- C6 witness: the ordering conjunct applied to a concrete two-event
same-date stream. -/
theorem C6_witness :
    ((sortedEventsOf ⟨1, 2, 1000, 100, 0, 0⟩
      [⟨1, EvType.buy, "a", 0, 10, "x"⟩,
       ⟨1, EvType.buy, "a", 0, 10, "y"⟩]).get
        ⟨1, by rw [c6_len]; omega⟩).type = EvType.buy := by
  refine C6_sell_before_buy.1 ⟨1, 2, 1000, 100, 0, 0⟩
    [⟨1, EvType.buy, "a", 0, 10, "x"⟩, ⟨1, EvType.buy, "a", 0, 10, "y"⟩]
    ⟨0, by rw [c6_len]; omega⟩ ⟨1, by rw [c6_len]; omega⟩ ?_ ?_ ?_
  · simp [Fin.lt_def]
  · simp [sortedEventsOf, List.mergeSort, List.merge, evLE, evTypeRank]
  · simp [sortedEventsOf, List.mergeSort, List.merge, evLE, evTypeRank]

/-- Key/shares skeleton of the positions map: the part of the state the
price-propagation machinery never changes. -/
def posKS (m : List (String × Pos)) : List (String × ℚ) :=
  m.map (fun p => (p.1, p.2.shares))

/-- What mark-to-market propagation leaves untouched: cash, the trade
ledger, and the keys/shares of the open positions. -/
def pmInv (st st' : SimSt) : Prop :=
  st'.cash = st.cash ∧ st'.trades = st.trades ∧
    posKS st'.positions = posKS st.positions

theorem pmInv_refl (st : SimSt) : pmInv st st := ⟨rfl, rfl, rfl⟩

theorem pmInv_trans {s1 s2 s3 : SimSt} (h1 : pmInv s1 s2) (h2 : pmInv s2 s3) :
    pmInv s1 s3 :=
  ⟨h2.1.trans h1.1, h2.2.1.trans h1.2.1, h2.2.2.trans h1.2.2⟩

theorem posKS_mapSet (m : List (String × Pos)) (f : String) (pos v : Pos)
    (h : mapGet m f = some pos) (hsh : v.shares = pos.shares) :
    posKS (mapSet m f v) = posKS m := by
  induction m with
  | nil => simp [mapGet] at h
  | cons hd tl ih =>
      by_cases hk : hd.1 = f
      · simp only [mapGet, if_pos hk] at h
        cases h
        simp [mapSet, hk, posKS, hsh]
      · simp only [mapGet, if_neg hk] at h
        simp [mapSet, hk, posKS] at ih ⊢
        exact ih h

theorem pushNextIfAny_pmInv (ctx : Ctx) (st : SimSt) (f : String) :
    pmInv st (pushNextIfAny ctx st f) :=
  ⟨pushNextIfAny_cash ctx st f, pushNextIfAny_trades ctx st f,
    by rw [pushNextIfAny_positions]⟩

theorem applyPriceUpdate_pmInv (ctx : Ctx) (st : SimSt) (f : String)
    (i : ℤ) : pmInv st (applyPriceUpdate ctx st f i) := by
  unfold applyPriceUpdate
  cases hp : mapGet st.positions f with
  | none => exact pmInv_refl st
  | some pos =>
      cases hs : mapGet ctx.seriesByFile f with
      | none => exact pmInv_refl st
      | some s =>
          dsimp only []
          split_ifs with hq
          · refine pmInv_trans ?_ (pushNextIfAny_pmInv ctx _ f)
            exact ⟨rfl, rfl, posKS_mapSet st.positions f pos _ hp rfl⟩
          · refine pmInv_trans ?_ (pushNextIfAny_pmInv ctx _ f)
            exact ⟨rfl, rfl, posKS_mapSet st.positions f pos _ hp rfl⟩

theorem drainStep_pmInv (ctx : Ctx) (d : ℤ) (st : SimSt) :
    pmInv st (drainStep ctx d st) := by
  unfold drainStep
  cases hpop : heapPop st.heap with
  | mk eo a' =>
      cases eo with
      | none => exact ⟨rfl, rfl, rfl⟩
      | some e =>
          dsimp only []
          cases hp : mapGet st.positions e.file with
          | none => exact ⟨rfl, rfl, rfl⟩
          | some pos =>
              cases hs : mapGet ctx.seriesByFile e.file with
              | none => exact ⟨rfl, rfl, rfl⟩
              | some s =>
                  dsimp only []
                  split_ifs with hg
                  · exact pmInv_trans (⟨rfl, rfl, rfl⟩ :
                      pmInv st { st with heap := a' })
                      (applyPriceUpdate_pmInv ctx _ e.file pos.nextIdx)
                  · exact ⟨rfl, rfl, rfl⟩

theorem drainDate_pmInv (ctx : Ctx) (d : ℤ) (st : SimSt) :
    pmInv st (drainDate ctx d st) := by
  have key : ∀ k st, simMu ctx st ≤ k → pmInv st (drainDate ctx d st) := by
    intro k
    induction k with
    | zero =>
        intro st hk
        rw [drainDate]
        cases hp : heapPeek st.heap with
        | none => exact pmInv_refl st
        | some top =>
            have hne : st.heap ≠ [] := by
              cases h : st.heap
              · rw [h] at hp; simp [heapPeek] at hp
              · simp [h]
            have := drainStep_mu_lt ctx d st hne
            omega
    | succ k ih =>
        intro st hk
        rw [drainDate]
        cases hp : heapPeek st.heap with
        | none => exact pmInv_refl st
        | some top =>
            dsimp only []
            split_ifs with hd
            · have hne : st.heap ≠ [] := by
                cases h : st.heap
                · rw [h] at hp; simp [heapPeek] at hp
                · simp [h]
              have h1 := drainStep_mu_lt ctx d st hne
              exact pmInv_trans (drainStep_pmInv ctx d st)
                (ih (drainStep ctx d st) (by omega))
            · exact pmInv_refl st
  exact key (simMu ctx st) st le_rfl

theorem applyUpdatesAt_pmInv (ctx : Ctx) (d : ℤ) (st : SimSt) :
    pmInv st (applyUpdatesAt ctx d st) := by
  have key : ∀ k st, simMu ctx st ≤ k → pmInv st (applyUpdatesAt ctx d st) := by
    intro k
    induction k with
    | zero =>
        intro st hk
        rw [applyUpdatesAt]
        cases hp : heapPeek st.heap with
        | none => exact pmInv_refl st
        | some top =>
            dsimp only []
            split_ifs with hd
            · have := drainDate_mu_lt ctx d st top hp hd
              omega
            · exact pmInv_refl st
    | succ k ih =>
        intro st hk
        rw [applyUpdatesAt]
        cases hp : heapPeek st.heap with
        | none => exact pmInv_refl st
        | some top =>
            dsimp only []
            split_ifs with hd
            · have h1 := drainDate_mu_lt ctx d st top hp hd
              exact pmInv_trans (drainDate_pmInv ctx d st)
                (ih (drainDate ctx d st) (by omega))
            · exact pmInv_refl st
  exact key (simMu ctx st) st le_rfl

theorem flushBefore_pmInv (ctx : Ctx) (x : ℤ) (st : SimSt) :
    pmInv st (flushBefore ctx x st) := by
  have key : ∀ k st, simMu ctx st ≤ k → pmInv st (flushBefore ctx x st) := by
    intro k
    induction k with
    | zero =>
        intro st hk
        rw [flushBefore]
        cases hp : heapPeek st.heap with
        | none => exact pmInv_refl st
        | some top =>
            dsimp only []
            split_ifs with hd
            · have := drainDate_mu_lt ctx top.date st top hp rfl
              omega
            · exact pmInv_refl st
    | succ k ih =>
        intro st hk
        rw [flushBefore]
        cases hp : heapPeek st.heap with
        | none => exact pmInv_refl st
        | some top =>
            dsimp only []
            split_ifs with hd
            · have h1 := drainDate_mu_lt ctx top.date st top hp rfl
              have h2 := drainDate_pmInv ctx top.date st
              refine pmInv_trans h2 (pmInv_trans (⟨rfl, rfl, rfl⟩ :
                pmInv (drainDate ctx top.date st)
                  { drainDate ctx top.date st with
                    equityCurve := pushEquityPoint
                      (drainDate ctx top.date st).equityCurve top.date
                      ((drainDate ctx top.date st).cash +
                        (drainDate ctx top.date st).totalMV) }) ?_)
              refine ih _ ?_
              have : simMu ctx { drainDate ctx top.date st with
                  equityCurve := pushEquityPoint
                    (drainDate ctx top.date st).equityCurve top.date
                    ((drainDate ctx top.date st).cash +
                      (drainDate ctx top.date st).totalMV) } =
                  simMu ctx (drainDate ctx top.date st) := rfl
              omega
            · exact pmInv_refl st
  exact key (simMu ctx st) st le_rfl

theorem mapGet_mem {κ β : Type} [DecidableEq κ] {m : List (κ × β)} {k : κ}
    {v : β} (h : mapGet m k = some v) : (k, v) ∈ m := by
  induction m with
  | nil => simp [mapGet] at h
  | cons hd tl ih =>
      by_cases hk : hd.1 = k
      · simp only [mapGet, if_pos hk] at h
        cases h
        subst hk
        simp
      · simp only [mapGet, if_neg hk] at h
        exact List.mem_cons_of_mem hd (ih h)

theorem forall_mapSet {κ β : Type} [DecidableEq κ] {P : κ × β → Prop}
    {m : List (κ × β)} (k : κ) (v : β) (h : ∀ p ∈ m, P p) (hv : P (k, v)) :
    ∀ p ∈ mapSet m k v, P p := by
  induction m with
  | nil => simpa [mapSet] using hv
  | cons hd tl ih =>
      intro p hp
      by_cases hk : hd.1 = k
      · simp only [mapSet, if_pos hk] at hp
        cases hp with
        | head => exact hv
        | tail _ hp => exact h p (List.mem_cons_of_mem hd hp)
      · simp only [mapSet, if_neg hk] at hp
        cases hp with
        | head => exact h hd (List.mem_cons_self hd tl)
        | tail _ hp => exact ih (fun q hq => h q (List.mem_cons_of_mem hd hq)) p hp

theorem forall_mapDelete {κ β : Type} [DecidableEq κ] {P : κ × β → Prop}
    {m : List (κ × β)} (k : κ) (h : ∀ p ∈ m, P p) :
    ∀ p ∈ mapDelete m k, P p := by
  induction m with
  | nil => simp [mapDelete]
  | cons hd tl ih =>
      intro p hp
      by_cases hk : hd.1 = k
      · simp only [mapDelete, if_pos hk] at hp
        exact h p (List.mem_cons_of_mem hd hp)
      · simp only [mapDelete, if_neg hk] at hp
        cases hp with
        | head => exact h hd (List.mem_cons_self hd tl)
        | tail _ hp => exact ih (fun q hq => h q (List.mem_cons_of_mem hd hq)) p hp

/-- All open positions hold a nonnegative number of shares. -/
def sharesInv (st : SimSt) : Prop := ∀ p ∈ st.positions, 0 ≤ p.2.shares

theorem sharesInv_of_posKS {st st' : SimSt}
    (h : posKS st'.positions = posKS st.positions) (hs : sharesInv st) :
    sharesInv st' := by
  intro p hp
  have hmem : (p.1, p.2.shares) ∈ posKS st.positions := by
    rw [← h]
    exact List.mem_map_of_mem _ hp
  simp only [posKS, List.mem_map] at hmem
  obtain ⟨q, hq, hqe⟩ := hmem
  have hq2 := hs q hq
  have h2 : q.2.shares = p.2.shares := congrArg Prod.snd hqe
  exact h2 ▸ hq2

theorem sellOne_sharesInv (ctx : Ctx) (st : SimSt) (ev : Ev)
    (hs : sharesInv st) : sharesInv (sellOne ctx st ev) := by
  unfold sellOne
  cases hp : mapGet st.positions ev.file with
  | none => exact hs
  | some pos =>
      have hs' : ∀ q ∈ st.positions, (0 : ℚ) ≤ q.2.shares := hs
      have hv : (0 : ℚ) ≤ pos.shares := hs _ (mapGet_mem hp)
      have h1 : ∀ q ∈ mapSet st.positions ev.file
          { pos with lastPrice := ev.price }, (0 : ℚ) ≤ q.2.shares :=
        forall_mapSet (P := fun q => (0 : ℚ) ≤ q.2.shares) ev.file
          { pos with lastPrice := ev.price } hs' hv
      dsimp only []
      split_ifs <;>
        first
          | exact hs
          | (intro p hpm
             dsimp only [] at hpm
             first
               | exact forall_mapDelete ev.file h1 p hpm
               | exact forall_mapDelete ev.file hs' p hpm)

theorem sellOne_cash_mono (ctx : Ctx) (st : SimSt) (ev : Ev)
    (hr : ctx.feeRate + ctx.stampRate ≤ 1) (hs : sharesInv st) :
    st.cash ≤ (sellOne ctx st ev).cash := by
  cases hp : mapGet st.positions ev.file with
  | none => rw [sellOne_of_no_position ctx st ev hp]
  | some pos =>
      by_cases hpx : 0 < ev.price
      · rw [sellOne_cash_formula ctx st ev pos hp hpx]
        have hsh : (0 : ℚ) ≤ pos.shares := hs _ (mapGet_mem hp)
        have hterm : 0 ≤ pos.shares * ev.price *
            (1 - ctx.feeRate - ctx.stampRate) :=
          mul_nonneg (mul_nonneg hsh (le_of_lt hpx)) (by linarith)
        linarith
      · rw [sellOne_of_bad_price ctx st ev pos hp hpx]

theorem sellPhase_inv (ctx : Ctx) (st : SimSt) (evs : List Ev)
    (hr : ctx.feeRate + ctx.stampRate ≤ 1) (hs : sharesInv st) :
    st.cash ≤ (sellPhase ctx st evs).cash ∧
      sharesInv (sellPhase ctx st evs) := by
  induction evs generalizing st with
  | nil => exact ⟨le_rfl, hs⟩
  | cons ev rest ih =>
      have hstep : sellPhase ctx st (ev :: rest) =
          sellPhase ctx (sellOne ctx st ev) rest := rfl
      rw [hstep]
      have h1 := sellOne_cash_mono ctx st ev hr hs
      have h2 := sellOne_sharesInv ctx st ev hs
      obtain ⟨ha, hb⟩ := ih (sellOne ctx st ev) h2
      exact ⟨le_trans h1 ha, hb⟩

theorem commitList_inv (ctx : Ctx) (st : SimSt) (cands : List Ev)
    (hc : -buyEps ≤ st.cash) (hs : sharesInv st) :
    -buyEps ≤ (commitList ctx st cands).cash ∧
      sharesInv (commitList ctx st cands) := by
  induction cands generalizing st with
  | nil => exact ⟨hc, hs⟩
  | cons ev rest ih =>
      have hs' : ∀ q ∈ st.positions, (0 : ℚ) ≤ q.2.shares := hs
      rw [commitList]
      dsimp only []
      generalize hqty : (if (⌊st.cash / (ev.price * ctx.lot)⌋ : ℚ) * ctx.lot <
          (⌊st.cash / ((rest.length : ℚ) + 1) / (ev.price * ctx.lot)⌋ : ℚ) *
            ctx.lot
        then (⌊st.cash / (ev.price * ctx.lot)⌋ : ℚ) * ctx.lot
        else (⌊st.cash / ((rest.length : ℚ) + 1) / (ev.price * ctx.lot)⌋ : ℚ) *
          ctx.lot) = qty
      split_ifs with h1 h2
      · exact ih st hc hs
      · exact ih st hc hs
      · apply ih
        · rw [pushNextIfAny_cash]
          dsimp only []
          push_neg at h2
          linarith
        · refine sharesInv_of_posKS (pushNextIfAny_pmInv ctx _ ev.file).2.2 ?_
          intro p hpm
          dsimp only [] at hpm
          refine forall_mapSet (P := fun q => (0 : ℚ) ≤ q.2.shares) ev.file
            _ hs' ?_ p hpm
          dsimp only []
          push_neg at h1
          exact le_of_lt h1


theorem buyLoop_inv (ctx : Ctx) (st : SimSt) (cands : List Ev)
    (hc : -buyEps ≤ st.cash) (hs : sharesInv st) :
    -buyEps ≤ (buyLoop ctx st cands).cash ∧ sharesInv (buyLoop ctx st cands) := by
  have key : ∀ k cands, List.length cands ≤ k →
      -buyEps ≤ (buyLoop ctx st cands).cash ∧
        sharesInv (buyLoop ctx st cands) := by
    intro k
    induction k with
    | zero =>
        intro cands hk
        have : cands = [] := List.length_eq_zero.mp (by omega)
        rw [buyLoop, dif_pos this]
        exact ⟨hc, hs⟩
    | succ k ih =>
        intro cands hk
        rw [buyLoop]
        by_cases h0 : cands = []
        · rw [dif_pos h0]
          exact ⟨hc, hs⟩
        · rw [dif_neg h0]
          simp only []
          split_ifs with hall hnone
          · exact commitList_inv ctx st cands hc hs
          · exact ⟨hc, hs⟩
          · refine ih _ ?_
            have := List.length_filter_le
              (canBuyAtBudget ctx (st.cash / (cands.length : ℚ))) cands
            omega
  exact key cands.length cands le_rfl

theorem buyWithEqualBudget_inv (ctx : Ctx) (st : SimSt) (evs : List Ev)
    (hc : -buyEps ≤ st.cash) (hs : sharesInv st) :
    -buyEps ≤ (buyWithEqualBudget ctx st evs).cash ∧
      sharesInv (buyWithEqualBudget ctx st evs) := by
  unfold buyWithEqualBudget
  dsimp only []
  split_ifs with h0
  · exact ⟨hc, hs⟩
  · exact buyLoop_inv ctx st _ hc hs

theorem pmInv_transfer {st st' : SimSt} (h : pmInv st st')
    (hc : -buyEps ≤ st.cash) (hs : sharesInv st) :
    -buyEps ≤ st'.cash ∧ sharesInv st' :=
  ⟨by rw [h.1]; exact hc, sharesInv_of_posKS h.2.2 hs⟩

theorem simLoop_inv (ctx : Ctx) (st : SimSt) (evs : List Ev)
    (hr : ctx.feeRate + ctx.stampRate ≤ 1)
    (hc : -buyEps ≤ st.cash) (hs : sharesInv st) :
    -buyEps ≤ (simLoop ctx st evs).cash ∧ sharesInv (simLoop ctx st evs) := by
  have key : ∀ k evs st, List.length evs ≤ k → -buyEps ≤ st.cash →
      sharesInv st →
      -buyEps ≤ (simLoop ctx st evs).cash ∧ sharesInv (simLoop ctx st evs) := by
    intro k
    induction k with
    | zero =>
        intro evs st hk hc hs
        have : evs = [] := List.length_eq_zero.mp (by omega)
        subst this
        rw [simLoop]
        exact ⟨hc, hs⟩
    | succ k ih =>
        intro evs st hk hc hs
        match evs with
        | [] =>
            rw [simLoop]
            exact ⟨hc, hs⟩
        | e :: tl =>
            rw [simLoop]
            have h1 := pmInv_transfer (flushBefore_pmInv ctx e.date st) hc hs
            have h2 := pmInv_transfer
              (applyUpdatesAt_pmInv ctx e.date (flushBefore ctx e.date st))
              h1.1 h1.2
            have h3 := sellPhase_inv ctx _
              (((e :: tl).takeWhile (fun x => decide (x.date = e.date))).filter
                (fun x => decide (x.type = EvType.sell))) hr h2.2
            have h3c : -buyEps ≤ (sellPhase ctx
                (applyUpdatesAt ctx e.date (flushBefore ctx e.date st))
                (((e :: tl).takeWhile (fun x => decide (x.date = e.date))).filter
                  (fun x => decide (x.type = EvType.sell)))).cash :=
              le_trans h2.1 h3.1
            have h4 := buyWithEqualBudget_inv ctx _
              (((e :: tl).takeWhile (fun x => decide (x.date = e.date))).filter
                (fun x => decide (x.type = EvType.buy))) h3c h3.2
            refine ih _ _ ?_ h4.1 h4.2
            have hd := dropWhile_length_le (fun x => decide (x.date = e.date)) tl
            simp only [List.length_cons] at hk
            simp [List.dropWhile_cons]
            omega
  exact key evs.length evs st le_rfl hc hs

/-- C4 (amended): with `feeBps + stampBps ≤ 10000` (total trading friction at
most 100 %), cash never drops below `-1e-9`: a sell settlement never reduces
cash, a buy commitment keeps cash at or above `-1e-9` (the `1e-9`
affordability tolerance lets it dip that far below zero), and the replay of
any event stream under any configuration accepted by the checks ends — and
stays throughout — at cash `≥ -1e-9`. -/
theorem C4_amended_cash :
    (∀ (ctx : Ctx) (st : SimSt) (ev : Ev),
      ctx.feeRate + ctx.stampRate ≤ 1 → sharesInv st →
      st.cash ≤ (sellOne ctx st ev).cash) ∧
    (∀ (ctx : Ctx) (st : SimSt) (cands : List Ev),
      -buyEps ≤ st.cash → sharesInv st →
      -buyEps ≤ (commitList ctx st cands).cash) ∧
    (∀ (seriesByFile : List (String × SeriesData)) (events : List Ev)
      (cfg : Cfg), cfgOk cfg → cfg.feeBps + cfg.stampBps ≤ 10000 →
      -buyEps ≤ (simulateEqualWeightState seriesByFile events cfg).cash) := by
  refine ⟨fun ctx st ev hr hs => sellOne_cash_mono ctx st ev hr hs,
    fun ctx st cands hc hs => (commitList_inv ctx st cands hc hs).1, ?_⟩
  intro seriesByFile events cfg hok hbps
  obtain ⟨hcap, hlot, hfee, hstamp⟩ := hok
  have hr : (mkCtx seriesByFile cfg).feeRate +
      (mkCtx seriesByFile cfg).stampRate ≤ 1 := by
    simp only [mkCtx]
    rw [div_add_div_same, div_le_one (by norm_num)]
    linarith
  have hc0 : -buyEps ≤ (initSt cfg).cash := by
    simp only [initSt]
    have : (0 : ℚ) < buyEps := by norm_num [buyEps]
    linarith
  have hs0 : sharesInv (initSt cfg) := by
    intro p hp
    simp [initSt] at hp
  have hloop := simLoop_inv (mkCtx seriesByFile cfg) (initSt cfg)
    (sortedEventsOf cfg events) hr hc0 hs0
  unfold simulateEqualWeightState
  exact (pmInv_transfer
    (flushBefore_pmInv (mkCtx seriesByFile cfg) (cfg.endYmd + 1) _)
    hloop.1 hloop.2).1

theorem simLoop_nil (ctx : Ctx) (st : SimSt) : simLoop ctx st [] = st := by
  rw [simLoop]

theorem simLoop_cons (ctx : Ctx) (st : SimSt) (e : Ev) (tl : List Ev) :
    simLoop ctx st (e :: tl) =
      simLoop ctx
        (let st2 := applyUpdatesAt ctx e.date (flushBefore ctx e.date st)
         let todays := (e :: tl).takeWhile (fun x => decide (x.date = e.date))
         let st3 := sellPhase ctx st2
           (todays.filter (fun x => decide (x.type = EvType.sell)))
         let st4 := buyWithEqualBudget ctx st3
           (todays.filter (fun x => decide (x.type = EvType.buy)))
         { st4 with equityCurve :=
             pushEquityPoint st4.equityCurve e.date (st4.cash + st4.totalMV) })
        ((e :: tl).dropWhile (fun x => decide (x.date = e.date))) := by
  rw [simLoop]

theorem drainDate_stop (ctx : Ctx) (d : ℤ) (st : SimSt)
    (h : ∀ top ∈ heapPeek st.heap, top.date ≠ d) : drainDate ctx d st = st := by
  rw [drainDate]
  cases hp : heapPeek st.heap with
  | none => rfl
  | some top =>
      dsimp only []
      rw [if_neg (h top (by rw [hp]; rfl))]

theorem drainDate_go (ctx : Ctx) (d : ℤ) (st : SimSt) (top : HeapE)
    (hp : heapPeek st.heap = some top) (hd : top.date = d) :
    drainDate ctx d st = drainDate ctx d (drainStep ctx d st) := by
  conv_lhs => rw [drainDate]
  rw [hp]
  dsimp only []
  rw [if_pos hd]

theorem applyUpdatesAt_stop (ctx : Ctx) (d : ℤ) (st : SimSt)
    (h : ∀ top ∈ heapPeek st.heap, top.date ≠ d) :
    applyUpdatesAt ctx d st = st := by
  rw [applyUpdatesAt]
  cases hp : heapPeek st.heap with
  | none => rfl
  | some top =>
      dsimp only []
      rw [dif_neg (h top (by rw [hp]; rfl))]

theorem applyUpdatesAt_go (ctx : Ctx) (d : ℤ) (st : SimSt) (top : HeapE)
    (hp : heapPeek st.heap = some top) (hd : top.date = d) :
    applyUpdatesAt ctx d st = applyUpdatesAt ctx d (drainDate ctx d st) := by
  conv_lhs => rw [applyUpdatesAt]
  rw [hp]
  dsimp only []
  rw [dif_pos hd]

theorem flushBefore_stop (ctx : Ctx) (x : ℤ) (st : SimSt)
    (h : ∀ top ∈ heapPeek st.heap, x ≤ top.date) : flushBefore ctx x st = st := by
  rw [flushBefore]
  cases hp : heapPeek st.heap with
  | none => rfl
  | some top =>
      dsimp only []
      rw [dif_neg (not_lt.mpr (h top (by rw [hp]; rfl)))]

theorem flushBefore_go (ctx : Ctx) (x : ℤ) (st : SimSt) (top : HeapE)
    (hp : heapPeek st.heap = some top) (hlt : top.date < x) :
    flushBefore ctx x st =
      flushBefore ctx x
        { drainDate ctx top.date st with
          equityCurve := pushEquityPoint (drainDate ctx top.date st).equityCurve
              top.date
              ((drainDate ctx top.date st).cash +
                (drainDate ctx top.date st).totalMV) } := by
  conv_lhs => rw [flushBefore]
  rw [hp]
  dsimp only []
  rw [dif_pos hlt]

theorem decide_buy_eq_sell : decide (EvType.buy = EvType.sell) = false := rfl

theorem decide_sell_eq_buy : decide (EvType.sell = EvType.buy) = false := rfl

theorem decide_buy_eq_buy : decide (EvType.buy = EvType.buy) = true := rfl

theorem decide_sell_eq_sell : decide (EvType.sell = EvType.sell) = true := rfl

theorem siftUp_zero (a : List HeapE) : siftUp a 0 = a := by
  rw [siftUp]
  simp

theorem heapPush_nil (x : HeapE) : heapPush [] x = [x] := by
  rw [heapPush]
  simp [siftUp_zero]

/-- C4 counterexample, scenario 1: stamp tax of 200 %. -/
def c4cfgA : Cfg := ⟨1, 2, 1000, 100, 0, 20000⟩

/-- C4 counterexample, scenario 1: one security with two in-window days. -/
def c4serA : List (String × SeriesData) := [("f", ⟨[1, 2], [10, 10]⟩)]

def c4evBuy : Ev := ⟨1, EvType.buy, "f", 0, 10, "signal_entry"⟩

def c4evSell : Ev := ⟨2, EvType.sell, "f", 1, 10, "signal_exit"⟩

/-- C4 counterexample, scenario 2: a dust fee of `1e-9` bps combined with the
`1e-9` affordability tolerance. -/
def c4cfgB : Cfg := ⟨1, 1, 1000, 100, 1 / 1000000000, 0⟩

def c4serB : List (String × SeriesData) := [("g", ⟨[1], [10]⟩)]

def c4evB : Ev := ⟨1, EvType.buy, "g", 0, 10, "signal_entry"⟩

theorem c4runA :
    simulateEqualWeightState c4serA [c4evBuy, c4evSell] c4cfgA =
      ⟨-1000, [], [⟨"f", 1, 2, 10, 10, 100, -2000, -2, "signal_exit"⟩],
        [(1, 1000), (2, -1000)], 0, []⟩ := by
  unfold simulateEqualWeightState
  simp only []
  have hs : sortedEventsOf c4cfgA [c4evBuy, c4evSell] = [c4evBuy, c4evSell] := by
    norm_num [sortedEventsOf, c4cfgA, List.mergeSort, List.merge, evLE,
      evTypeRank, c4evBuy, c4evSell]
  rw [hs]
  have hinit : initSt c4cfgA = ⟨1000, [], [], [], 0, []⟩ := by
    norm_num [initSt, c4cfgA]
  rw [hinit]
  have hrun : simLoop (mkCtx c4serA c4cfgA) ⟨1000, [], [], [], 0, []⟩
      [c4evBuy, c4evSell] =
      ⟨-1000, [], [⟨"f", 1, 2, 10, 10, 100, -2000, -2, "signal_exit"⟩],
        [(1, 1000), (2, -1000)], 0, []⟩ := by
    rw [simLoop_cons]
    norm_num [c4evBuy, c4evSell, decide_buy_eq_sell, decide_sell_eq_buy,
      decide_buy_eq_buy, decide_sell_eq_sell, List.filter]
    rw [flushBefore_stop _ _ _ (by simp [heapPeek])]
    rw [applyUpdatesAt_stop _ _ _ (by simp [heapPeek])]
    norm_num [sellPhase]
    rw [buyWithEqualBudget]
    norm_num [mapGet, c4evBuy]
    rw [buyLoop]
    norm_num [canBuyAtBudget, c4serA, c4cfgA, mkCtx, c4evBuy]
    rw [commitList]
    norm_num [c4evBuy, c4serA, c4cfgA, mkCtx, buyEps]
    rw [commitList]
    norm_num [pushNextIfAny, mapGet, mapSet, c4serA, c4cfgA, mkCtx, iGet,
      pushEquityPoint, heapPush_nil]
    rw [simLoop_cons]
    norm_num [c4evSell, List.filter, decide_buy_eq_sell, decide_sell_eq_buy,
      decide_buy_eq_buy, decide_sell_eq_sell]
    rw [flushBefore_stop _ _ _ (by simp [heapPeek])]
    rw [applyUpdatesAt_go _ _ _ ⟨2, "f"⟩ (by simp [heapPeek]) rfl]
    rw [drainDate_go _ _ _ ⟨2, "f"⟩ (by simp [heapPeek]) rfl]
    norm_num [drainStep, heapPop, List.dropLast, List.getLastD, mapGet, iGet,
      applyPriceUpdate, qGet, mapSet, pushNextIfAny, c4serA, c4cfgA, mkCtx]
    rw [drainDate_stop _ _ _ (by simp [heapPeek])]
    rw [applyUpdatesAt_stop _ _ _ (by simp [heapPeek])]
    norm_num [sellPhase, sellOne, mapGet, mapDelete, mapSet, c4evSell, c4serA,
      c4cfgA, mkCtx]
    rw [buyWithEqualBudget]
    norm_num [pushEquityPoint, simLoop_nil]
  rw [hrun]
  rw [flushBefore_stop _ _ _ (by simp [heapPeek])]

theorem c4runB :
    (simulateEqualWeightState c4serB [c4evB] c4cfgB).cash =
      -(1 / 10000000000) := by
  unfold simulateEqualWeightState
  simp only []
  have hs : sortedEventsOf c4cfgB [c4evB] = [c4evB] := by
    norm_num [sortedEventsOf, c4cfgB, List.mergeSort, c4evB]
  rw [hs]
  have hinit : initSt c4cfgB = ⟨1000, [], [], [], 0, []⟩ := by
    norm_num [initSt, c4cfgB]
  rw [hinit]
  have hrun : simLoop (mkCtx c4serB c4cfgB) ⟨1000, [], [], [], 0, []⟩
      [c4evB] =
      ⟨-(1 / 10000000000),
        [("g", ⟨100, 10, 0, 1, 1, 10, 10000000000001 / 10000000000⟩)],
        [], [(1, -(1 / 10000000000) + 1000)], 1000, []⟩ := by
    rw [simLoop_cons]
    norm_num [c4evB]
    rw [flushBefore_stop _ _ _ (by simp [heapPeek])]
    rw [applyUpdatesAt_stop _ _ _ (by simp [heapPeek])]
    norm_num [sellPhase, List.filter, decide_buy_eq_sell, decide_sell_eq_buy,
      decide_buy_eq_buy, decide_sell_eq_sell]
    rw [buyWithEqualBudget]
    norm_num [mapGet, c4evB]
    rw [buyLoop]
    norm_num [canBuyAtBudget, c4serB, c4cfgB, mkCtx, c4evB]
    rw [commitList]
    norm_num [c4evB, c4serB, c4cfgB, mkCtx, buyEps]
    rw [commitList]
    norm_num [pushNextIfAny, mapGet, mapSet, c4serB, c4cfgB, mkCtx, iGet,
      pushEquityPoint, simLoop_nil]
  rw [hrun]
  rw [flushBefore_stop _ _ _ (by simp [heapPeek])]

/-- C4 (counterexample): cash does go negative after a settlement, for inputs
the configuration checks accept. Scenario 1: `stampBps = 20000` (a 200 %
sell-side tax, accepted since the check only demands nonnegativity) drives
cash to `-1000` when the position is sold. Scenario 2: even with total fees
below 100 % (`feeBps = 1e-9`), the `1e-9` affordability tolerance in the buy
commitment leaves cash at `-1e-10 < 0` after the buy settles. -/
theorem C4_counterexample :
    cfgOk c4cfgA ∧
    (simulateEqualWeightState c4serA [c4evBuy, c4evSell] c4cfgA).cash =
      -1000 ∧ (-1000 : ℚ) < 0 ∧
    cfgOk c4cfgB ∧ c4cfgB.feeBps + c4cfgB.stampBps ≤ 10000 ∧
    (simulateEqualWeightState c4serB [c4evB] c4cfgB).cash =
      -(1 / 10000000000) ∧ (-(1 / 10000000000) : ℚ) < 0 := by
  refine ⟨by norm_num [cfgOk, c4cfgA], by rw [c4runA], by norm_num,
    by norm_num [cfgOk, c4cfgB], by norm_num [c4cfgB], c4runB, by norm_num⟩

/-- C4 witness: the amended end-to-end bound applied at a concrete accepted
configuration and event stream. -/
theorem C4_witness :
    -buyEps ≤ (simulateEqualWeightState c4serA [c4evBuy, c4evSell]
      ⟨1, 2, 1000, 100, 10, 10⟩).cash :=
  C4_amended_cash.2.2 c4serA [c4evBuy, c4evSell] ⟨1, 2, 1000, 100, 10, 10⟩
    (by norm_num [cfgOk]) (by norm_num)

/-- The positions map holds at most one entry per security id. -/
def keysNodup (st : SimSt) : Prop := (st.positions.map Prod.fst).Nodup

theorem mapSet_keys_mem {κ β : Type} [DecidableEq κ] (m : List (κ × β))
    (k : κ) (v : β) (a : κ) (h : a ∈ (mapSet m k v).map Prod.fst) :
    a ∈ m.map Prod.fst ∨ a = k := by
  induction m with
  | nil => simpa [mapSet] using h
  | cons hd tl ih =>
      by_cases hk : hd.1 = k
      · simp only [mapSet, if_pos hk, List.map, List.mem_cons] at h
        rcases h with h | h
        · exact Or.inr h
        · exact Or.inl (by simp [List.map]; right; simpa using h)
      · simp only [mapSet, if_neg hk, List.map, List.mem_cons] at h
        rcases h with h | h
        · exact Or.inl (by simp [List.map, h])
        · rcases ih h with h' | h'
          · exact Or.inl (by simp [List.map]; right; simpa using h')
          · exact Or.inr h'

theorem mapSet_keysNodup {κ β : Type} [DecidableEq κ] (m : List (κ × β))
    (k : κ) (v : β) (h : (m.map Prod.fst).Nodup) :
    ((mapSet m k v).map Prod.fst).Nodup := by
  induction m with
  | nil => simp [mapSet]
  | cons hd tl ih =>
      simp only [List.map, List.nodup_cons] at h
      by_cases hk : hd.1 = k
      · simp only [mapSet, if_pos hk, List.map, List.nodup_cons]
        exact ⟨by rw [← hk]; exact h.1, h.2⟩
      · simp only [mapSet, if_neg hk, List.map, List.nodup_cons]
        refine ⟨?_, ih h.2⟩
        intro hmem
        rcases mapSet_keys_mem tl k v hd.1 hmem with h' | h'
        · exact h.1 h'
        · exact hk h'

theorem mapDelete_sublist {κ β : Type} [DecidableEq κ] (m : List (κ × β))
    (k : κ) : List.Sublist (mapDelete m k) m := by
  induction m with
  | nil => simp [mapDelete]
  | cons hd tl ih =>
      by_cases hk : hd.1 = k
      · simp only [mapDelete, if_pos hk]
        exact List.sublist_cons_of_sublist hd (List.Sublist.refl tl)
      · simp only [mapDelete, if_neg hk]
        exact List.Sublist.cons₂ hd ih

theorem mapDelete_keysNodup {κ β : Type} [DecidableEq κ] (m : List (κ × β))
    (k : κ) (h : (m.map Prod.fst).Nodup) :
    ((mapDelete m k).map Prod.fst).Nodup :=
  ((mapDelete_sublist m k).map Prod.fst).nodup h

theorem keysNodup_of_posKS {st st' : SimSt}
    (h : posKS st'.positions = posKS st.positions) (hk : keysNodup st) :
    keysNodup st' := by
  have hkeys : st'.positions.map Prod.fst = st.positions.map Prod.fst := by
    have := congrArg (List.map Prod.fst) h
    simpa [posKS, List.map_map, Function.comp] using this
  unfold keysNodup
  rw [hkeys]
  exact hk

theorem sellOne_keysNodup (ctx : Ctx) (st : SimSt) (ev : Ev)
    (hk : keysNodup st) : keysNodup (sellOne ctx st ev) := by
  have hk' : (st.positions.map Prod.fst).Nodup := hk
  unfold keysNodup sellOne
  cases hp : mapGet st.positions ev.file with
  | none => exact hk'
  | some pos =>
      dsimp only []
      split_ifs with hpx hne <;> (try dsimp only) <;>
        first
          | exact hk'
          | exact mapDelete_keysNodup st.positions ev.file hk'
          | exact mapDelete_keysNodup (mapSet st.positions ev.file _) ev.file
              (mapSet_keysNodup st.positions ev.file _ hk')

theorem sellPhase_keysNodup (ctx : Ctx) (st : SimSt) (evs : List Ev)
    (hk : keysNodup st) : keysNodup (sellPhase ctx st evs) := by
  induction evs generalizing st with
  | nil => exact hk
  | cons ev rest ih => exact ih (sellOne ctx st ev) (sellOne_keysNodup ctx st ev hk)

theorem commitList_keysNodup (ctx : Ctx) (st : SimSt) (cands : List Ev)
    (hk : keysNodup st) : keysNodup (commitList ctx st cands) := by
  induction cands generalizing st with
  | nil => exact hk
  | cons ev rest ih =>
      rw [commitList]
      dsimp only []
      split_ifs <;>
        first
          | exact ih st hk
          | (refine ih _ ?_
             show ((pushNextIfAny ctx _ _).positions.map Prod.fst).Nodup
             rw [pushNextIfAny_positions]
             exact mapSet_keysNodup st.positions ev.file _ hk)

theorem buyLoop_keysNodup (ctx : Ctx) (st : SimSt) (cands : List Ev)
    (hk : keysNodup st) : keysNodup (buyLoop ctx st cands) := by
  have key : ∀ k cands, List.length cands ≤ k →
      keysNodup (buyLoop ctx st cands) := by
    intro k
    induction k with
    | zero =>
        intro cands hlen
        have : cands = [] := List.length_eq_zero.mp (by omega)
        rw [buyLoop, dif_pos this]
        exact hk
    | succ k ih =>
        intro cands hlen
        rw [buyLoop]
        by_cases h0 : cands = []
        · rw [dif_pos h0]; exact hk
        · rw [dif_neg h0]
          simp only []
          split_ifs with hall hnone
          · exact commitList_keysNodup ctx st cands hk
          · exact hk
          · refine ih _ ?_
            have := List.length_filter_le
              (canBuyAtBudget ctx (st.cash / (cands.length : ℚ))) cands
            omega
  exact key cands.length cands le_rfl

theorem buyWithEqualBudget_keysNodup (ctx : Ctx) (st : SimSt) (evs : List Ev)
    (hk : keysNodup st) : keysNodup (buyWithEqualBudget ctx st evs) := by
  unfold buyWithEqualBudget
  dsimp only []
  split_ifs with h0
  · exact hk
  · exact buyLoop_keysNodup ctx st _ hk

theorem simLoop_keysNodup (ctx : Ctx) (st : SimSt) (evs : List Ev)
    (hk : keysNodup st) : keysNodup (simLoop ctx st evs) := by
  have key : ∀ k evs st, List.length evs ≤ k → keysNodup st →
      keysNodup (simLoop ctx st evs) := by
    intro k
    induction k with
    | zero =>
        intro evs st hlen hk
        have : evs = [] := List.length_eq_zero.mp (by omega)
        subst this
        rw [simLoop]
        exact hk
    | succ k ih =>
        intro evs st hlen hk
        match evs with
        | [] => rw [simLoop]; exact hk
        | e :: tl =>
            rw [simLoop]
            have h1 := keysNodup_of_posKS
              (flushBefore_pmInv ctx e.date st).2.2 hk
            have h2 := keysNodup_of_posKS
              (applyUpdatesAt_pmInv ctx e.date (flushBefore ctx e.date st)).2.2 h1
            have h3 := sellPhase_keysNodup ctx _
              (((e :: tl).takeWhile (fun x => decide (x.date = e.date))).filter
                (fun x => decide (x.type = EvType.sell))) h2
            have h4 := buyWithEqualBudget_keysNodup ctx _
              (((e :: tl).takeWhile (fun x => decide (x.date = e.date))).filter
                (fun x => decide (x.type = EvType.buy))) h3
            refine ih _ _ ?_ h4
            have hd := dropWhile_length_le (fun x => decide (x.date = e.date)) tl
            simp only [List.length_cons] at hlen
            simp [List.dropWhile_cons]
            omega
  exact key evs.length evs st le_rfl hk

theorem commitList_other_file (ctx : Ctx) (st : SimSt) (cands : List Ev)
    (f : String) (h : ∀ e ∈ cands, e.file ≠ f) :
    mapGet (commitList ctx st cands).positions f = mapGet st.positions f := by
  induction cands generalizing st with
  | nil => rfl
  | cons ev rest ih =>
      rw [commitList]
      dsimp only []
      split_ifs <;>
        first
          | exact ih st (fun e he => h e (List.mem_cons_of_mem ev he))
          | (rw [ih _ (fun e he => h e (List.mem_cons_of_mem ev he)),
                pushNextIfAny_positions]
             exact mapGet_mapSet_ne st.positions ev.file f
               _ (fun he => h ev (List.mem_cons_self ev rest) he.symm))

theorem buyLoop_other_file (ctx : Ctx) (st : SimSt) (cands : List Ev)
    (f : String) (h : ∀ e ∈ cands, e.file ≠ f) :
    mapGet (buyLoop ctx st cands).positions f = mapGet st.positions f := by
  have key : ∀ k cands, List.length cands ≤ k → (∀ e ∈ cands, e.file ≠ f) →
      mapGet (buyLoop ctx st cands).positions f = mapGet st.positions f := by
    intro k
    induction k with
    | zero =>
        intro cands hlen hmem
        have : cands = [] := List.length_eq_zero.mp (by omega)
        rw [buyLoop, dif_pos this]
    | succ k ih =>
        intro cands hlen hmem
        rw [buyLoop]
        by_cases h0 : cands = []
        · rw [dif_pos h0]
        · rw [dif_neg h0]
          simp only []
          split_ifs with hall hnone
          · exact commitList_other_file ctx st cands f hmem
          · rfl
          · refine ih _ ?_ ?_
            · have := List.length_filter_le
                (canBuyAtBudget ctx (st.cash / (cands.length : ℚ))) cands
              omega
            · intro e he
              exact hmem e (List.mem_of_mem_filter he)
  exact key cands.length cands le_rfl h

/-- A buy allocation never touches a security that already holds an open
position when the allocation starts. -/
theorem buyWithEqualBudget_held (ctx : Ctx) (st : SimSt) (evs : List Ev)
    (f : String) (h : (mapGet st.positions f).isSome) :
    mapGet (buyWithEqualBudget ctx st evs).positions f =
      mapGet st.positions f := by
  unfold buyWithEqualBudget
  dsimp only []
  split_ifs with h0
  · rfl
  · refine buyLoop_other_file ctx st _ f ?_
    intro e he
    rcases List.mem_filter.mp he with ⟨_, hnone⟩
    intro hef
    rw [hef] at hnone
    rw [Option.isNone_iff_eq_none] at hnone
    rw [hnone] at h
    simp at h

/-- C9 counterexample configuration: cash 3000, lot 100, no fees, a
single-day window. -/
def c9cfg : Cfg := ⟨1, 1, 3000, 100, 0, 0⟩

def c9ser : List (String × SeriesData) := [("f", ⟨[1], [10]⟩)]

/-- One buy signal-execution event; the counterexample stream holds it twice. -/
def c9ev : Ev := ⟨1, EvType.buy, "f", 0, 10, "signal_entry"⟩

/-- The engine state right after the first of the two duplicate buys commits:
the security is already open with 100 shares, 1000 spent. -/
def c9mid : SimSt :=
  ⟨2000, [("f", ⟨100, 10, 0, 1, 1, 10, 1000⟩)], [], [], 1000, []⟩

theorem c9step1 :
    commitList (mkCtx c9ser c9cfg) (initSt c9cfg) [c9ev, c9ev] =
      commitList (mkCtx c9ser c9cfg) c9mid [c9ev] := by
  rw [commitList]
  norm_num [c9ev, c9ser, c9cfg, mkCtx, initSt, buyEps, pushNextIfAny,
    mapGet, mapSet, iGet, c9mid]

theorem c9step2 :
    commitList (mkCtx c9ser c9cfg) c9mid [c9ev] =
      ⟨0, [("f", ⟨200, 10, 0, 1, 1, 10, 2000⟩)], [], [], 3000, []⟩ := by
  rw [commitList]
  norm_num [c9ev, c9ser, c9cfg, c9mid, mkCtx, buyEps, pushNextIfAny,
    mapGet, mapSet, iGet]
  rw [commitList]

theorem c9run :
    simulateEqualWeightState c9ser [c9ev, c9ev] c9cfg =
      ⟨0, [("f", ⟨200, 10, 0, 1, 1, 10, 2000⟩)], [], [(1, 3000)], 3000, []⟩ := by
  unfold simulateEqualWeightState
  simp only []
  have hs : sortedEventsOf c9cfg [c9ev, c9ev] = [c9ev, c9ev] := by
    norm_num [sortedEventsOf, c9cfg, List.mergeSort, List.merge, evLE,
      evTypeRank, c9ev]
  rw [hs]
  have hinit : initSt c9cfg = ⟨3000, [], [], [], 0, []⟩ := by
    norm_num [initSt, c9cfg]
  rw [hinit]
  have hrun : simLoop (mkCtx c9ser c9cfg) ⟨3000, [], [], [], 0, []⟩
      [c9ev, c9ev] =
      ⟨0, [("f", ⟨200, 10, 0, 1, 1, 10, 2000⟩)], [], [(1, 3000)], 3000, []⟩ := by
    rw [simLoop_cons]
    norm_num [c9ev, List.filter, decide_buy_eq_sell, decide_sell_eq_buy,
      decide_buy_eq_buy, decide_sell_eq_sell]
    rw [flushBefore_stop _ _ _ (by simp [heapPeek])]
    rw [applyUpdatesAt_stop _ _ _ (by simp [heapPeek])]
    norm_num [sellPhase]
    rw [buyWithEqualBudget]
    norm_num [mapGet, c9ev]
    rw [buyLoop]
    norm_num [canBuyAtBudget, c9ser, c9cfg, mkCtx, c9ev]
    rw [commitList]
    norm_num [c9ev, c9ser, c9cfg, mkCtx, buyEps, pushNextIfAny, mapGet,
      mapSet, iGet]
    rw [commitList]
    norm_num [c9ev, c9ser, c9cfg, mkCtx, buyEps, pushNextIfAny, mapGet,
      mapSet, iGet]
    rw [commitList]
    norm_num [pushEquityPoint, simLoop_nil]
    simp
  rw [hrun]
  rw [flushBefore_stop _ _ _ (by simp [heapPeek])]

/-- C9 (counterexample): with the duplicate same-day buy stream
`[c9ev, c9ev]` (cash 3000, lot 100, no fees), the commit pass first opens a
100-share position in "f", and then the second buy — settled while "f"
already has an open position — replaces it with a fresh 200-share position.
The full engine run on this stream ends with the replaced position: cash 0
was fully spent (1000 + 2000) yet the surviving position records only the
second buy's 2000 cost basis, so a buy for an already-open security did
create/replace a position, contradicting the claim's second half. -/
theorem C9_counterexample :
    cfgOk c9cfg ∧
    mapGet c9mid.positions "f" = some ⟨100, 10, 0, 1, 1, 10, 1000⟩ ∧
    commitList (mkCtx c9ser c9cfg) (initSt c9cfg) [c9ev, c9ev] =
      commitList (mkCtx c9ser c9cfg) c9mid [c9ev] ∧
    mapGet (commitList (mkCtx c9ser c9cfg) c9mid [c9ev]).positions "f" =
      some ⟨200, 10, 0, 1, 1, 10, 2000⟩ ∧
    simulateEqualWeightState c9ser [c9ev, c9ev] c9cfg =
      ⟨0, [("f", ⟨200, 10, 0, 1, 1, 10, 2000⟩)], [], [(1, 3000)], 3000, []⟩ ∧
    (⟨200, 10, 0, 1, 1, 10, 2000⟩ : Pos) ≠ ⟨100, 10, 0, 1, 1, 10, 1000⟩ := by
  refine ⟨by norm_num [cfgOk, c9cfg], by norm_num [c9mid, mapGet], c9step1,
    by rw [c9step2]; norm_num [mapGet], c9run, by norm_num [Pos.mk.injEq]⟩

/-- C9 (amended): the first half of the claim holds unconditionally — the
positions map never holds two entries for the same security id, in any run
of `simulatePortfolioEqualWeight` on any inputs. The second half holds only
at the granularity of the once-per-day held-filter: a buy allocation never
creates or replaces a position for a security that already has an open
position when the allocation starts (duplicate buys arriving within the same
allocation can still replace, as the counterexample shows). -/
theorem C9_amended_single_position :
    (∀ seriesByFile events cfg,
      keysNodup (simulateEqualWeightState seriesByFile events cfg)) ∧
    (∀ ctx st evs f, (mapGet st.positions f).isSome →
      mapGet (buyWithEqualBudget ctx st evs).positions f =
        mapGet st.positions f) := by
  constructor
  · intro ser events cfg
    unfold simulateEqualWeightState
    simp only []
    refine keysNodup_of_posKS (flushBefore_pmInv _ _ _).2.2 ?_
    refine simLoop_keysNodup _ _ _ ?_
    show ((initSt cfg).positions.map Prod.fst).Nodup
    simp [initSt]
  · exact buyWithEqualBudget_held

/-- C9 witness: the amended statement applied at a concrete run and at a
concrete held-position allocation. -/
theorem C9_witness :
    keysNodup (simulateEqualWeightState [("f", ⟨[1], [10]⟩)]
      [⟨1, EvType.buy, "f", 0, 10, "signal_entry"⟩] ⟨1, 1, 3000, 100, 0, 0⟩) ∧
    mapGet (buyWithEqualBudget
        (mkCtx [("f", ⟨[1], [10]⟩)] ⟨1, 1, 3000, 100, 0, 0⟩)
        ⟨2000, [("f", ⟨100, 10, 0, 1, 1, 10, 1000⟩)], [], [], 1000, []⟩
        [⟨1, EvType.buy, "f", 0, 10, "signal_entry"⟩]).positions "f" =
      mapGet (SimSt.positions
        ⟨2000, [("f", ⟨100, 10, 0, 1, 1, 10, 1000⟩)], [], [], 1000, []⟩) "f" :=
  ⟨C9_amended_single_position.1 _ _ _,
   C9_amended_single_position.2 _ _ _ "f" (by simp [mapGet])⟩

theorem mapGet_eq_none_iff {κ β : Type} [DecidableEq κ]
    (m : List (κ × β)) (k : κ) :
    mapGet m k = none ↔ k ∉ m.map Prod.fst := by
  induction m with
  | nil => simp [mapGet]
  | cons hd tl ih =>
      obtain ⟨k', v⟩ := hd
      by_cases h : k' = k
      · subst h
        simp [mapGet]
      · simp [mapGet, h, ih, Ne.symm h]

theorem mapGet_none_of_posKS {m m' : List (String × Pos)} (f : String)
    (h : posKS m' = posKS m) (hn : mapGet m f = none) :
    mapGet m' f = none := by
  have hkeys : m'.map Prod.fst = m.map Prod.fst := by
    have := congrArg (List.map Prod.fst) h
    simpa [posKS, List.map_map, Function.comp] using this
  rw [mapGet_eq_none_iff] at hn ⊢
  rw [hkeys]
  exact hn

theorem mapGet_mapDelete_ne {κ β : Type} [DecidableEq κ]
    (m : List (κ × β)) (k k' : κ) (h : k' ≠ k) :
    mapGet (mapDelete m k) k' = mapGet m k' := by
  induction m with
  | nil => rfl
  | cons hd tl ih =>
      obtain ⟨a, v⟩ := hd
      by_cases ha : a = k
      · rw [show mapDelete ((a, v) :: tl) k = tl from by simp [mapDelete, ha]]
        rw [show mapGet ((a, v) :: tl) k' = mapGet tl k' from by
          simp [mapGet, show ¬ a = k' from fun he => h (he.symm.trans ha)]]
      · rw [show mapDelete ((a, v) :: tl) k = (a, v) :: mapDelete tl k from by
          simp [mapDelete, ha]]
        by_cases ha' : a = k'
        · simp [mapGet, ha']
        · simp [mapGet, ha', ih]

theorem mapGet_mapDelete_self {κ β : Type} [DecidableEq κ]
    (m : List (κ × β)) (k : κ) (h : (m.map Prod.fst).Nodup) :
    mapGet (mapDelete m k) k = none := by
  induction m with
  | nil => rfl
  | cons hd tl ih =>
      obtain ⟨a, v⟩ := hd
      simp only [List.map, List.nodup_cons] at h
      by_cases ha : a = k
      · subst ha
        simp only [mapDelete, if_pos rfl]
        rw [mapGet_eq_none_iff]
        exact h.1
      · simp only [mapDelete, if_neg ha, mapGet, if_neg ha]
        exact ih h.2

theorem sellOne_lookup_self (ctx : Ctx) (st : SimSt) (ev : Ev)
    (hk : keysNodup st) (hp : 0 < ev.price) :
    mapGet (sellOne ctx st ev).positions ev.file = none := by
  have hk' : (st.positions.map Prod.fst).Nodup := hk
  unfold sellOne
  cases hpos : mapGet st.positions ev.file with
  | none => exact hpos
  | some pos =>
      dsimp only []
      rw [if_pos hp]
      by_cases hne : pos.lastPrice ≠ ev.price
      · rw [if_pos hne]
        exact mapGet_mapDelete_self _ _
          (mapSet_keysNodup st.positions ev.file _ hk')
      · rw [if_neg hne]
        exact mapGet_mapDelete_self _ _ hk'

theorem sellOne_lookup_none (ctx : Ctx) (st : SimSt) (ev : Ev) (f : String)
    (hn : mapGet st.positions f = none) :
    mapGet (sellOne ctx st ev).positions f = none := by
  by_cases hef : ev.file = f
  · subst hef
    unfold sellOne
    rw [hn]
    exact hn
  · unfold sellOne
    cases hpos : mapGet st.positions ev.file with
    | none => exact hn
    | some pos =>
        dsimp only []
        split_ifs with h1 h2 <;>
          first
            | exact hn
            | (rw [mapGet_mapDelete_ne _ _ _ (fun he => hef he.symm)]
               first
                 | exact hn
                 | (rw [mapGet_mapSet_ne _ _ _ _ (fun he => hef he.symm)]
                    exact hn))

theorem sellPhase_lookup_none (ctx : Ctx) (st : SimSt) (evs : List Ev)
    (f : String) (hn : mapGet st.positions f = none) :
    mapGet (sellPhase ctx st evs).positions f = none := by
  induction evs generalizing st with
  | nil => exact hn
  | cons ev rest ih =>
      exact ih (sellOne ctx st ev) (sellOne_lookup_none ctx st ev f hn)

theorem sellPhase_clears (ctx : Ctx) (st : SimSt) (evs : List Ev)
    (f : String) (s : Ev) (hk : keysNodup st) (hs : s ∈ evs)
    (hf : s.file = f) (hp : 0 < s.price) :
    mapGet (sellPhase ctx st evs).positions f = none := by
  induction evs generalizing st with
  | nil => cases hs
  | cons ev rest ih =>
      cases hs with
      | head =>
          refine sellPhase_lookup_none ctx _ rest f ?_
          rw [← hf]
          exact sellOne_lookup_self ctx st s hk hp
      | tail _ hs' =>
          exact ih (sellOne ctx st ev) (sellOne_keysNodup ctx st ev hk) hs'

theorem buyWithEqualBudget_other_file (ctx : Ctx) (st : SimSt)
    (evs : List Ev) (f : String) (h : ∀ e ∈ evs, e.file ≠ f) :
    mapGet (buyWithEqualBudget ctx st evs).positions f =
      mapGet st.positions f := by
  unfold buyWithEqualBudget
  dsimp only []
  split_ifs with h0
  · rfl
  · refine buyLoop_other_file ctx st _ f ?_
    intro e he
    exact h e (List.mem_of_mem_filter he)

theorem positions_setEquity (st : SimSt) (c : List (ℤ × ℚ)) :
    SimSt.positions { st with equityCurve := c } = st.positions := rfl

theorem keysNodup_setEquity (st : SimSt) (c : List (ℤ × ℚ))
    (hk : keysNodup st) : keysNodup { st with equityCurve := c } := by
  show (SimSt.positions { st with equityCurve := c } |>.map Prod.fst).Nodup
  rw [positions_setEquity]
  exact hk

theorem simLoop_lookup_none (ctx : Ctx) (f : String) :
    ∀ k evs st, List.length evs ≤ k →
      (∀ b ∈ evs, b.file = f → b.type ≠ EvType.buy) →
      mapGet st.positions f = none →
      mapGet (simLoop ctx st evs).positions f = none := by
  intro k
  induction k with
  | zero =>
      intro evs st hlen hb hn
      have : evs = [] := List.length_eq_zero.mp (by omega)
      subst this
      rw [simLoop]
      exact hn
  | succ k ih =>
      intro evs st hlen hb hn
      match evs with
      | [] => rw [simLoop]; exact hn
      | e :: tl =>
          rw [simLoop_cons]
          simp only []
          refine ih _ _ ?_ ?_ ?_
          · have hd := dropWhile_length_le (fun x => decide (x.date = e.date)) tl
            simp only [List.length_cons] at hlen
            simp [List.dropWhile_cons]
            omega
          · intro b hbm hbf
            exact hb b ((List.dropWhile_sublist _).subset hbm) hbf
          · have h1 : mapGet (flushBefore ctx e.date st).positions f = none :=
              mapGet_none_of_posKS f (flushBefore_pmInv ctx e.date st).2.2 hn
            have h2 : mapGet (applyUpdatesAt ctx e.date
                (flushBefore ctx e.date st)).positions f = none :=
              mapGet_none_of_posKS f
                (applyUpdatesAt_pmInv ctx e.date _).2.2 h1
            have hb4 : ∀ x ∈ ((e :: tl).takeWhile
                  (fun x => decide (x.date = e.date))).filter
                  (fun x => decide (x.type = EvType.buy)), x.file ≠ f := by
              intro x hx hxf
              rcases List.mem_filter.mp hx with ⟨hxt, hxty⟩
              have hxin : x ∈ e :: tl := (List.takeWhile_sublist _).subset hxt
              exact hb x hxin hxf (by simpa using hxty)
            rw [positions_setEquity,
              buyWithEqualBudget_other_file _ _ _ f hb4]
            exact sellPhase_lookup_none ctx _ _ f h2

theorem simLoop_liquidates (ctx : Ctx) (f : String) :
    ∀ k evs st, List.length evs ≤ k → keysNodup st →
      evs.Pairwise (fun a b => a.date ≤ b.date) →
      ∀ s ∈ evs, s.type = EvType.sell → s.file = f → 0 < s.price →
      (∀ b ∈ evs, b.file = f → b.type = EvType.buy → b.date < s.date) →
      mapGet (simLoop ctx st evs).positions f = none := by
  intro k
  induction k with
  | zero =>
      intro evs st hlen _ _ s hs
      have : evs = [] := List.length_eq_zero.mp (by omega)
      subst this
      cases hs
  | succ k ih =>
      intro evs st hlen hk hsort s hs hstype hsfile hsp hbuy
      match evs with
      | [] => cases hs
      | e :: tl =>
          rw [simLoop_cons]
          simp only []
          have hlenrest : List.length ((e :: tl).dropWhile
              (fun x => decide (x.date = e.date))) ≤ k := by
            have hd := dropWhile_length_le (fun x => decide (x.date = e.date)) tl
            simp only [List.length_cons] at hlen
            simp [List.dropWhile_cons]
            omega
          have hk1 : keysNodup (flushBefore ctx e.date st) :=
            keysNodup_of_posKS (flushBefore_pmInv ctx e.date st).2.2 hk
          have hk2 : keysNodup (applyUpdatesAt ctx e.date
              (flushBefore ctx e.date st)) :=
            keysNodup_of_posKS (applyUpdatesAt_pmInv ctx e.date _).2.2 hk1
          by_cases hsin : s ∈ (e :: tl).takeWhile
              (fun x => decide (x.date = e.date))
          · have hsd : s.date = e.date := by
              simpa using List.mem_takeWhile_imp hsin
            have hsl : s ∈ ((e :: tl).takeWhile
                  (fun x => decide (x.date = e.date))).filter
                  (fun x => decide (x.type = EvType.sell)) :=
              List.mem_filter.mpr ⟨hsin, by simp [hstype]⟩
            have h3 := sellPhase_clears ctx _ _ f s hk2 hsl hsfile hsp
            have hb4 : ∀ x ∈ ((e :: tl).takeWhile
                  (fun x => decide (x.date = e.date))).filter
                  (fun x => decide (x.type = EvType.buy)), x.file ≠ f := by
              intro x hx hxf
              rcases List.mem_filter.mp hx with ⟨hxt, hxty⟩
              have hxd : x.date = e.date := by
                simpa using List.mem_takeWhile_imp hxt
              have hxin : x ∈ e :: tl := (List.takeWhile_sublist _).subset hxt
              have hlt := hbuy x hxin hxf (by simpa using hxty)
              omega
            refine simLoop_lookup_none ctx f k _ _ hlenrest ?_ ?_
            · intro b hbm hbf hbt
              have hbin : b ∈ e :: tl := (List.dropWhile_sublist _).subset hbm
              have hge : e.date ≤ b.date := by
                cases hbin with
                | head => exact le_refl _
                | tail _ h' => exact (List.pairwise_cons.mp hsort).1 b h'
              have hlt := hbuy b hbin hbf hbt
              omega
            · rw [positions_setEquity,
                buyWithEqualBudget_other_file _ _ _ f hb4]
              exact h3
          · have hs' : s ∈ (e :: tl).takeWhile
                  (fun x => decide (x.date = e.date)) ++
                (e :: tl).dropWhile (fun x => decide (x.date = e.date)) := by
              rw [List.takeWhile_append_dropWhile]
              exact hs
            rcases List.mem_append.mp hs' with h' | h'
            · exact absurd h' hsin
            · refine ih _ _ hlenrest ?_ ?_ s h' hstype hsfile hsp ?_
              · refine keysNodup_setEquity _ _ ?_
                refine buyWithEqualBudget_keysNodup ctx _ _ ?_
                exact sellPhase_keysNodup ctx _ _ hk2
              · exact List.Pairwise.sublist (List.dropWhile_sublist _) hsort
              · intro b hbm hbf hbt
                exact hbuy b ((List.dropWhile_sublist _).subset hbm) hbf hbt

/-- The settlement order produced by the event sort is nondecreasing in date. -/
theorem sortedEventsOf_date_pairwise (cfg : Cfg) (events : List Ev) :
    (sortedEventsOf cfg events).Pairwise (fun a b => a.date ≤ b.date) := by
  have hpw := @List.sorted_mergeSort Ev evLE evLE_trans evLE_total
    (events.filter
      (fun e => decide (cfg.startYmd ≤ e.date) && decide (e.date ≤ cfg.endYmd)))
  refine hpw.imp ?_
  intro a b hab
  simp only [evLE, decide_eq_true_eq] at hab
  rcases hab with h | ⟨h, _⟩
  · exact le_of_lt h
  · exact le_of_eq h

/-- C1 counterexample signal series: one entry signal on day 1, no exit
signals, two trading days. -/
def c1si : SignalSeries := ⟨"a", [1, 2], [10, 10], [true, false], [false, false]⟩

def c1o : BuildOpts := ⟨1, 2, ExecTiming.nextClose⟩

def c1cfg : Cfg := ⟨1, 2, 1000, 100, 0, 0⟩

def c1ser : List (String × SeriesData) := [("a", ⟨[1, 2], [10, 10]⟩)]

def c1evBuy : Ev := ⟨2, EvType.buy, "a", 1, 10, "signal_entry"⟩

def c1evSell : Ev := ⟨2, EvType.sell, "a", 1, 10, "force_exit_eof"⟩

theorem c1build : buildExecutionEvents c1si c1o = [c1evBuy, c1evSell] := by
  norm_num [buildExecutionEvents, c1si, c1o, signalEventsAt, beInRange,
    execIndex, dateAt, lastValidIdx, beValidIdx, qGet, iGet,
    c1evBuy, c1evSell, List.range_succ]

theorem c1run :
    simulateEqualWeightState c1ser [c1evSell, c1evBuy] c1cfg =
      ⟨0, [("a", ⟨100, 10, 1, 2, 2, 10, 1000⟩)], [], [(2, 1000)], 1000, []⟩ := by
  unfold simulateEqualWeightState
  simp only []
  have hs : sortedEventsOf c1cfg [c1evSell, c1evBuy] = [c1evSell, c1evBuy] := by
    norm_num [sortedEventsOf, c1cfg, List.mergeSort, List.merge, evLE,
      evTypeRank, c1evSell, c1evBuy]
  rw [hs]
  have hinit : initSt c1cfg = ⟨1000, [], [], [], 0, []⟩ := by
    norm_num [initSt, c1cfg]
  rw [hinit]
  have hrun : simLoop (mkCtx c1ser c1cfg) ⟨1000, [], [], [], 0, []⟩
      [c1evSell, c1evBuy] =
      ⟨0, [("a", ⟨100, 10, 1, 2, 2, 10, 1000⟩)], [], [(2, 1000)], 1000, []⟩ := by
    rw [simLoop_cons]
    norm_num [c1evSell, c1evBuy, List.filter, decide_buy_eq_sell,
      decide_sell_eq_buy, decide_buy_eq_buy, decide_sell_eq_sell]
    rw [flushBefore_stop _ _ _ (by simp [heapPeek])]
    rw [applyUpdatesAt_stop _ _ _ (by simp [heapPeek])]
    norm_num [sellPhase, sellOne, mapGet, c1evSell]
    rw [buyWithEqualBudget]
    norm_num [mapGet, c1evBuy]
    rw [buyLoop]
    norm_num [canBuyAtBudget, c1ser, c1cfg, mkCtx, c1evBuy]
    rw [commitList]
    norm_num [c1evBuy, c1ser, c1cfg, mkCtx, buyEps, pushNextIfAny, mapGet,
      mapSet, iGet]
    rw [commitList]
    norm_num [pushEquityPoint, simLoop_nil]
  rw [hrun]
  rw [flushBefore_stop _ _ _ (by simp [heapPeek])]

/-- C1 (counterexample): the pipeline `buildExecutionEvents` followed by
`simulatePortfolioEqualWeight` can end with an open position. The entry
signal on day 1 executes at the next close — day 2, the last valid
in-window index — which is exactly the date of the forced end-of-window
liquidation sell. Same-date sells settle before buys, so the forced sell
no-ops on the still-empty portfolio and the buy then opens a position that
no later event ever closes: the final open-position count is 1, not 0. -/
theorem C1_counterexample :
    cfgOk c1cfg ∧
    buildExecutionEvents c1si c1o = [c1evBuy, c1evSell] ∧
    (simulateEqualWeightState c1ser (buildExecutionEvents c1si c1o)
        c1cfg).positions = [("a", ⟨100, 10, 1, 2, 2, 10, 1000⟩)] ∧
    ((simulateEqualWeightState c1ser (buildExecutionEvents c1si c1o)
        c1cfg).positions).length ≠ 0 := by
  have hsame : simulateEqualWeightState c1ser (buildExecutionEvents c1si c1o)
      c1cfg = simulateEqualWeightState c1ser [c1evSell, c1evBuy] c1cfg := by
    rw [c1build]
    unfold simulateEqualWeightState
    simp only []
    have : sortedEventsOf c1cfg [c1evBuy, c1evSell] =
        sortedEventsOf c1cfg [c1evSell, c1evBuy] := by
      norm_num [sortedEventsOf, c1cfg, List.mergeSort, List.merge, evLE,
        evTypeRank, c1evSell, c1evBuy]
    rw [this]
  refine ⟨by norm_num [cfgOk, c1cfg], c1build, ?_, ?_⟩
  · rw [hsame, c1run]
  · rw [hsame, c1run]
    simp

/-- C1 (amended): complete liquidation holds for a security whenever some
positive-price sell event in the settlement order is dated strictly after
every buy event for that security: the final positions map has no entry for
it. The strictness is necessary — a buy sharing the date of the last
(forced) sell survives, as the counterexample shows, because same-date sells
settle before buys. -/
theorem C1_amended_liquidation :
    ∀ seriesByFile events cfg f s,
      s ∈ sortedEventsOf cfg events → s.type = EvType.sell → s.file = f →
      0 < s.price →
      (∀ b ∈ sortedEventsOf cfg events, b.file = f →
        b.type = EvType.buy → b.date < s.date) →
      mapGet (simulateEqualWeightState seriesByFile events cfg).positions f =
        none := by
  intro ser events cfg f s hs hstype hsfile hsp hbuy
  unfold simulateEqualWeightState
  simp only []
  refine mapGet_none_of_posKS f (flushBefore_pmInv _ _ _).2.2 ?_
  refine simLoop_liquidates (mkCtx ser cfg) f
    (sortedEventsOf cfg events).length _ _ le_rfl ?_
    (sortedEventsOf_date_pairwise cfg events) s hs hstype hsfile hsp hbuy
  show ((initSt cfg).positions.map Prod.fst).Nodup
  simp [initSt]

/-- C1 witness: the amended liquidation theorem applied at a concrete run
whose only event is a positive-price sell. -/
theorem C1_witness :
    mapGet (simulateEqualWeightState [("w", ⟨[1], [10]⟩)]
      [⟨1, EvType.sell, "w", 0, 10, "signal_exit"⟩]
      ⟨1, 1, 1000, 100, 0, 0⟩).positions "w" = none :=
  C1_amended_liquidation [("w", ⟨[1], [10]⟩)]
    [⟨1, EvType.sell, "w", 0, 10, "signal_exit"⟩] ⟨1, 1, 1000, 100, 0, 0⟩
    "w" ⟨1, EvType.sell, "w", 0, 10, "signal_exit"⟩
    (by simp [sortedEventsOf, List.mergeSort, List.filter])
    rfl rfl (by norm_num)
    (by
      intro b hb hbf hbt
      simp [sortedEventsOf, List.mergeSort, List.filter] at hb
      rw [hb] at hbt
      simp at hbt)

/-- One Period Plan as the periodic-ideal simulator reads it (all numeric
fields modelled finite; a non-finite `buyYmd`/`sellYmd` is skipped by the
same guard that rejects out-of-window plans). -/
structure Plan where
  buyYmd : ℤ
  sellYmd : ℤ
  picks : List String
  periodKey : String
deriving DecidableEq

/-- The validity guard of the plan-scan loop: in-window dates and buy
strictly before sell. -/
def planValid (startYmd endYmd : ℤ) (p : Plan) : Bool :=
  decide (startYmd ≤ p.buyYmd) && decide (p.sellYmd ≤ endYmd) &&
    decide (p.buyYmd < p.sellYmd)

/-- One step of the plan-scan loop of `simulatePortfolioPeriodicIdeal`:
`buyPlanByDate.set(p.buyYmd, p)` (overwrite) and
`sellPlansByDate.get(p.sellYmd).push(p)` (accumulate). -/
def planFold (startYmd endYmd : ℤ)
    (acc : List (ℤ × Plan) × List (ℤ × List Plan)) (p : Plan) :
    List (ℤ × Plan) × List (ℤ × List Plan) :=
  if planValid startYmd endYmd p then
    (mapSet acc.1 p.buyYmd p,
     mapSet acc.2 p.sellYmd ((mapGet acc.2 p.sellYmd).getD [] ++ [p]))
  else acc

/-- The `buyPlanByDate` / `sellPlansByDate` maps built by
`simulatePortfolioPeriodicIdeal` from the input plan list. -/
def buildPlanMaps (startYmd endYmd : ℤ) (plans : List Plan) :
    List (ℤ × Plan) × List (ℤ × List Plan) :=
  plans.foldl (planFold startYmd endYmd) ([], [])

/-- The sequence of plans the day loop hands to `buyEqualWeightAtClose`:
one `buyPlanByDate` lookup per market date
(`if (buyPlanByDate.has(d)) buyEqualWeightAtClose(buyPlanByDate.get(d))`). -/
def executedBuyPlans (startYmd endYmd : ℤ) (plans : List Plan)
    (marketDates : List ℤ) : List Plan :=
  marketDates.filterMap
    (fun d => mapGet (buildPlanMaps startYmd endYmd plans).1 d)

/-- Spec-side reading of the claim: the plan appearing LAST in the input
list among the valid plans with the given buy date. -/
def lastPlanFor (startYmd endYmd d : ℤ) (plans : List Plan) : Option Plan :=
  (plans.filter
    (fun p => planValid startYmd endYmd p && decide (p.buyYmd = d))).getLast?

/-- Spec-side reading of the claim: ALL valid plans with the given sell
date, in input order. -/
def sellPlansFor (startYmd endYmd d : ℤ) (plans : List Plan) : List Plan :=
  plans.filter
    (fun p => planValid startYmd endYmd p && decide (p.sellYmd = d))

theorem planFold_pos (s e : ℤ) (acc : List (ℤ × Plan) × List (ℤ × List Plan))
    (p : Plan) (h : planValid s e p = true) :
    planFold s e acc p =
      (mapSet acc.1 p.buyYmd p,
       mapSet acc.2 p.sellYmd ((mapGet acc.2 p.sellYmd).getD [] ++ [p])) := by
  unfold planFold
  rw [if_pos h]

theorem planFold_neg (s e : ℤ) (acc : List (ℤ × Plan) × List (ℤ × List Plan))
    (p : Plan) (h : ¬ planValid s e p = true) :
    planFold s e acc p = acc := by
  unfold planFold
  rw [if_neg h]

theorem buildPlanMaps_buy (s e : ℤ) (plans : List Plan) (d : ℤ) :
    mapGet (buildPlanMaps s e plans).1 d = lastPlanFor s e d plans := by
  induction plans using List.reverseRecOn with
  | nil => rfl
  | append_singleton l p ih =>
      unfold buildPlanMaps lastPlanFor at ih ⊢
      rw [List.foldl_append, List.filter_append]
      simp only [List.foldl_cons, List.foldl_nil]
      unfold planFold
      by_cases hv : planValid s e p
      · rw [if_pos hv]
        by_cases hd : p.buyYmd = d
        · have hfp : List.filter
              (fun q => planValid s e q && decide (q.buyYmd = d)) [p] = [p] := by
            simp [List.filter, hv, hd]
          rw [hfp, List.getLast?_concat]
          subst hd
          exact mapGet_mapSet_self _ _ _
        · have hfp : List.filter
              (fun q => planValid s e q && decide (q.buyYmd = d)) [p] = [] := by
            simp [List.filter, hd]
          rw [hfp, List.append_nil,
            mapGet_mapSet_ne _ _ _ _ (fun he => hd he.symm)]
          exact ih
      · rw [if_neg hv]
        have hfp : List.filter
            (fun q => planValid s e q && decide (q.buyYmd = d)) [p] = [] := by
          simp [List.filter, hv]
        rw [hfp, List.append_nil]
        exact ih

theorem buildPlanMaps_sell (s e : ℤ) (plans : List Plan) (d : ℤ) :
    mapGet (buildPlanMaps s e plans).2 d =
      (if sellPlansFor s e d plans = [] then none
       else some (sellPlansFor s e d plans)) := by
  induction plans using List.reverseRecOn with
  | nil => rfl
  | append_singleton l p ih =>
      unfold buildPlanMaps sellPlansFor at ih ⊢
      rw [List.foldl_append, List.filter_append]
      simp only [List.foldl_cons, List.foldl_nil]
      by_cases hv : planValid s e p
      · rw [planFold_pos _ _ _ _ hv]
        by_cases hd : p.sellYmd = d
        · have hfp : List.filter
              (fun q => planValid s e q && decide (q.sellYmd = d)) [p] = [p] := by
            simp [List.filter, hv, hd]
          rw [hfp]
          subst hd
          dsimp only
          rw [mapGet_mapSet_self, ih]
          by_cases h0 : List.filter
              (fun q => planValid s e q && decide (q.sellYmd = p.sellYmd)) l = []
          · rw [if_pos h0, h0]
            simp
          · rw [if_neg h0, if_neg (by simp [h0])]
            simp
        · have hfp : List.filter
              (fun q => planValid s e q && decide (q.sellYmd = d)) [p] = [] := by
            simp [List.filter, hd]
          rw [hfp, List.append_nil]
          dsimp only
          rw [mapGet_mapSet_ne _ _ _ _ (fun he => hd he.symm)]
          exact ih
      · rw [planFold_neg _ _ _ _ hv]
        have hfp : List.filter
            (fun q => planValid s e q && decide (q.sellYmd = d)) [p] = [] := by
          simp [List.filter, hv]
        rw [hfp, List.append_nil]
        exact ih

/-- C10: in periodic-ideal mode, when several valid Period Plans share a
`buyYmd`, only the plan appearing last in the input list is executed on that
date — the buy-plan map stores exactly the last valid plan per buy date
(`Map.set` overwrites) and the day loop hands exactly these lookups to the
buy routine, so the earlier same-date plans are never bought — while the
sell-plan map accumulates ALL valid plans per sell date (`push`), so every
valid plan is present in its sell date's liquidation list. -/
theorem C10_last_plan_wins :
    (∀ s e plans d,
      mapGet (buildPlanMaps s e plans).1 d = lastPlanFor s e d plans) ∧
    (∀ s e plans marketDates,
      executedBuyPlans s e plans marketDates =
        marketDates.filterMap (fun d => lastPlanFor s e d plans)) ∧
    (∀ s e plans d,
      mapGet (buildPlanMaps s e plans).2 d =
        (if sellPlansFor s e d plans = [] then none
         else some (sellPlansFor s e d plans))) ∧
    (∀ s e plans p, p ∈ plans → planValid s e p = true →
      p ∈ sellPlansFor s e p.sellYmd plans) := by
  refine ⟨buildPlanMaps_buy, ?_, buildPlanMaps_sell, ?_⟩
  · intro s e plans md
    unfold executedBuyPlans
    simp only [buildPlanMaps_buy]
  · intro s e plans p hp hv
    unfold sellPlansFor
    exact List.mem_filter.mpr ⟨hp, by simp [hv]⟩

/-- C10 witness: the last-plan-wins equality and the sell-side membership
applied to two concrete valid plans sharing `buyYmd = 1` and `sellYmd = 5`. -/
theorem C10_witness :
    mapGet (buildPlanMaps 0 10
        [⟨1, 5, ["x"], "k1"⟩, ⟨1, 5, ["y"], "k2"⟩]).1 1 =
      lastPlanFor 0 10 1 [⟨1, 5, ["x"], "k1"⟩, ⟨1, 5, ["y"], "k2"⟩] ∧
    (⟨1, 5, ["x"], "k1"⟩ : Plan) ∈
      sellPlansFor 0 10 5 [⟨1, 5, ["x"], "k1"⟩, ⟨1, 5, ["y"], "k2"⟩] :=
  ⟨C10_last_plan_wins.1 0 10 _ 1,
   C10_last_plan_wins.2.2.2 0 10 _ ⟨1, 5, ["x"], "k1"⟩ (by simp) (by decide)⟩
